import Mathlib

/-!
Verification of the cache-replacement policy engine: a shallow embedding of
the four policies (LRU, LFU, ARC, TDC) from `cache_lru.py`, `cache_lfu.py`,
`cache_arc.py`, `cache_tdc.py` and the shared statistics of `cache_base.py`.

Python `OrderedDict`s whose values are all `True` are modelled as `List Nat`
of their keys in insertion order; dicts with meaningful values as association
lists `List (Nat × α)` in insertion order.  `d[k] = v` keeps the position of
an existing key (Python dict semantics) and appends a fresh key at the tail.
Scores use `ℚ` in place of Python floats: no claim below depends on rounding.
Operations that raise in Python (`popitem` on an empty dict,
`next(iter(...))` of an empty bucket, `del` of an absent key) are totalised
as no-ops.  The empty-pop and empty-bucket cases are reachable only with
capacity ≤ 0, outside the scope of every claim below.  One totalised path
is, however, reachable at positive capacity: in the ARC ghost-B2 branch the
B2 cap pop inside `_replace(True)` can evict the accessed item itself, after
which the source's unconditional `del self.b2[item]` raises `KeyError`
(capacity 1, accesses `[1, 1, 2, 2]`, then `access(1)`); the model continues
past that point with a no-op erase, exhibited by the C3 code-bug theorem at
the end of the file.  Up to the raise the model follows the program exactly,
so model states are a superset of the program's non-crashed states and every
universally quantified theorem below also holds of the program.
-/

/-- `d[k] = True` on an `OrderedDict` of keys: keep position if present,
append at the most-recent end otherwise. -/
def odInsert (k : Nat) (l : List Nat) : List Nat :=
  if k ∈ l then l else l ++ [k]

/-- `OrderedDict.move_to_end(k)`: only used when `k` is present. -/
def moveToEnd (k : Nat) (l : List Nat) : List Nat :=
  l.erase k ++ [k]

/-- Dict lookup on an association list (first entry with the key wins). -/
def alistLookup (k : Nat) : List (Nat × α) → Option α
  | [] => none
  | (a, v) :: t => if a = k then some v else alistLookup k t

/-- `d[k] = v` on a dict: update in place if the key is present (keeping its
position), append at the tail otherwise. -/
def alistInsert (k : Nat) (v : α) (l : List (Nat × α)) : List (Nat × α) :=
  match alistLookup k l with
  | some _ => l.map (fun p => if p.1 = k then (k, v) else p)
  | none => l ++ [(k, v)]

/-- `del d[k]` on a dict (no-op when the key is absent). -/
def alistErase (k : Nat) (l : List (Nat × α)) : List (Nat × α) :=
  l.filter (fun p => p.1 ≠ k)

/-- The keys of a dict, in insertion order. -/
def keys (l : List (Nat × α)) : List Nat :=
  l.map Prod.fst

/-- Run a cache policy: fold `access` over a trace, keeping the final state. -/
def runP (step : σ → Nat → Bool × σ) : σ → List Nat → σ
  | s, [] => s
  | s, i :: t => runP step (step s i).2 t

/-- Run a cache policy, collecting the hit/miss boolean of each access. -/
def outsP (step : σ → Nat → Bool × σ) : σ → List Nat → List Bool
  | _, [] => []
  | s, i :: t => (step s i).1 :: outsP step (step s i).2 t

/-! ## Shared statistics (`cache_base.py`, `CachePolicy`) -/

/-- `CachePolicy.get_hit_ratio`: `hits / total` if `total > 0` else `0.0`.
Division is modelled exactly over `ℚ`. -/
def get_hit_ratio (hits misses : Nat) : ℚ :=
  if hits + misses > 0 then (hits : ℚ) / ((hits : ℚ) + (misses : ℚ)) else 0

/-- `CachePolicy.get_stats`: the `{hits, misses, hit_ratio}` record. -/
def get_stats (hits misses : Nat) : Nat × Nat × ℚ :=
  (hits, misses, get_hit_ratio hits misses)

/-! ## LRU (`cache_lru.py`, `LRUCache`) -/

structure LRUCache where
  capacity : Nat
  hits : Nat
  misses : Nat
  time : Nat
  /-- `OrderedDict` of resident items, least-recent first. -/
  cache : List Nat
  deriving Repr, DecidableEq

/-- `LRUCache.__init__` (including the base-class fields). -/
def LRUCache.init (capacity : Nat) : LRUCache :=
  { capacity := capacity, hits := 0, misses := 0, time := 0, cache := [] }

/-- `LRUCache.access`.  `popitem(last=False)` is the head of the order;
on an empty dict (reachable only with `capacity = 0`) Python would raise,
modelled as a no-op. -/
def LRUCache.access (s : LRUCache) (item : Nat) : Bool × LRUCache :=
  let s := { s with time := s.time + 1 }
  if item ∈ s.cache then
    (true, { s with cache := moveToEnd item s.cache, hits := s.hits + 1 })
  else
    let cache1 := if s.capacity ≤ s.cache.length then s.cache.tail else s.cache
    (false, { s with cache := odInsert item cache1, misses := s.misses + 1 })

/-- `LRUCache.reset`. -/
def LRUCache.reset (s : LRUCache) : LRUCache :=
  { s with cache := [], hits := 0, misses := 0, time := 0 }

/-- An item is resident iff it is a key of the `cache` ordered dict. -/
def LRUCache.resident (s : LRUCache) (x : Nat) : Prop :=
  x ∈ s.cache

/-! ## LFU (`cache_lfu.py`, `LFUCache`) -/

structure LFUCache where
  capacity : Nat
  hits : Nat
  misses : Nat
  time : Nat
  /-- `cache`: item → frequency. -/
  cache : List (Nat × Nat)
  /-- `freq_to_items`: a `defaultdict` of insertion-ordered buckets; a key
  that was never written (or was deleted) holds the empty bucket, which is
  exactly how a `defaultdict(OrderedDict)` behaves at the use sites. -/
  freq_to_items : Nat → List Nat
  min_freq : Nat

/-- `LFUCache.__init__`. -/
def LFUCache.init (capacity : Nat) : LFUCache :=
  { capacity := capacity, hits := 0, misses := 0, time := 0,
    cache := [], freq_to_items := fun _ => [], min_freq := 0 }

/-- `LFUCache.access`.  On the miss path, `next(iter(...))` of an empty
bucket (reachable only with `capacity = 0`) would raise in Python and is
modelled as skipping the eviction. -/
def LFUCache.access (s : LFUCache) (item : Nat) : Bool × LFUCache :=
  let s := { s with time := s.time + 1 }
  match alistLookup item s.cache with
  | some freq =>
    let bucket := (s.freq_to_items freq).erase item
    let ft1 : Nat → List Nat :=
      fun f => if f = freq then bucket else s.freq_to_items f
    let minf :=
      if bucket = [] ∧ s.min_freq = freq then s.min_freq + 1 else s.min_freq
    let ft2 : Nat → List Nat :=
      fun f => if f = freq + 1 then odInsert item (ft1 (freq + 1)) else ft1 f
    (true, { s with cache := alistInsert item (freq + 1) s.cache,
                    freq_to_items := ft2, min_freq := minf,
                    hits := s.hits + 1 })
  | none =>
    let s := { s with misses := s.misses + 1 }
    let evicted :
        List (Nat × Nat) × (Nat → List Nat) :=
      if s.capacity ≤ s.cache.length then
        match (s.freq_to_items s.min_freq).head? with
        | some e =>
          (alistErase e s.cache,
           fun f => if f = s.min_freq then (s.freq_to_items s.min_freq).tail
                    else s.freq_to_items f)
        | none => (s.cache, s.freq_to_items)
      else (s.cache, s.freq_to_items)
    (false, { s with
      cache := alistInsert item 1 evicted.1,
      freq_to_items :=
        fun f => if f = 1 then odInsert item (evicted.2 1) else evicted.2 f,
      min_freq := 1 })

/-- `LFUCache.reset`. -/
def LFUCache.reset (s : LFUCache) : LFUCache :=
  { s with cache := [], freq_to_items := fun _ => [], min_freq := 0,
           hits := 0, misses := 0, time := 0 }

/-- An item is resident iff it is a key of the `cache` frequency map. -/
def LFUCache.resident (s : LFUCache) (x : Nat) : Prop :=
  x ∈ keys s.cache

/-- Structural well-formedness of an LFU state, maintained by `access` from
the empty state: keys are unique, buckets are duplicate-free, every bucket
member is a cached item recorded at that exact frequency, and the
`min_freq` bucket is non-empty while the cache is non-empty. -/
def LFUCache.WF (s : LFUCache) : Prop :=
  (keys s.cache).Nodup ∧
  (∀ f, (s.freq_to_items f).Nodup) ∧
  (∀ f x, x ∈ s.freq_to_items f → alistLookup x s.cache = some f) ∧
  (s.cache ≠ [] → s.freq_to_items s.min_freq ≠ [])

/-! ## TDC (`cache_tdc.py`, `TimeDecayedCache`) -/

/-- The default of the `decay_rate` keyword parameter of
`TimeDecayedCache.__init__`. -/
def tdcDefaultDecayRate : ℚ := 99 / 100

structure TimeDecayedCache where
  capacity : Nat
  hits : Nat
  misses : Nat
  time : Nat
  decay_rate : ℚ
  /-- `cache`: item → score. -/
  cache : List (Nat × ℚ)
  /-- `last_update_time`: item → last update time. -/
  last_update_time : List (Nat × Nat)

/-- `TimeDecayedCache.__init__` (the `decay_rate` argument defaults to
`0.99` in the source). -/
def TimeDecayedCache.init (capacity : Nat)
    (decay_rate : ℚ := tdcDefaultDecayRate) : TimeDecayedCache :=
  { capacity := capacity, hits := 0, misses := 0, time := 0,
    decay_rate := decay_rate, cache := [], last_update_time := [] }

/-- `TimeDecayedCache._update_score`: the stored score decayed to the
current time.  A `last_update_time` miss (impossible while the two maps are
in sync, as `access` keeps them) decays from time `0`. -/
def TimeDecayedCache.updateScore (s : TimeDecayedCache) (item : Nat) : ℚ :=
  match alistLookup item s.cache with
  | none => 0
  | some sc =>
      sc * s.decay_rate ^
        (s.time - ((alistLookup item s.last_update_time).getD 0))

/-- One step of the eviction scan of `TimeDecayedCache.access`: starting
from `min_score = inf` (`none`), keep the first strictly smaller score. -/
def tdcStep (acc : Option (Nat × ℚ)) (p : Nat × ℚ) : Option (Nat × ℚ) :=
  match acc with
  | none => some p
  | some q => if p.2 < q.2 then some p else acc

/-- The eviction scan of `TimeDecayedCache.access`. -/
def tdcEvictMin (l : List (Nat × ℚ)) : Option Nat :=
  (l.foldl tdcStep none).map Prod.fst

/-- The eviction block of `TimeDecayedCache.access` (run when
`len(self.cache) >= self.capacity` on a miss): the Python loop rewrites
every resident entry with its decayed score and stamps its
`last_update_time` while scanning for the minimum (a key-preserving map
over the dict), then deletes the minimum-score item, keeping the first
minimum in insertion order.  Returns the resulting `(cache,
last_update_time)` pair. -/
def TimeDecayedCache.missEvict (s : TimeDecayedCache) :
    List (Nat × ℚ) × List (Nat × Nat) :=
  if s.capacity ≤ s.cache.length then
    match tdcEvictMin (s.cache.map (fun p => (p.1, s.updateScore p.1))) with
    | some min_item =>
      (alistErase min_item (s.cache.map (fun p => (p.1, s.updateScore p.1))),
       alistErase min_item
         (s.cache.foldl (fun m p => alistInsert p.1 s.time m)
           s.last_update_time))
    | none =>
      (s.cache.map (fun p => (p.1, s.updateScore p.1)),
       s.cache.foldl (fun m p => alistInsert p.1 s.time m)
         s.last_update_time)
  else (s.cache, s.last_update_time)

/-- `TimeDecayedCache.access`. -/
def TimeDecayedCache.access (s : TimeDecayedCache) (item : Nat) :
    Bool × TimeDecayedCache :=
  let s := { s with time := s.time + 1 }
  match alistLookup item s.cache with
  | some _ =>
    let current_score := s.updateScore item
    (true, { s with
      cache := alistInsert item (current_score + 1) s.cache,
      last_update_time := alistInsert item s.time s.last_update_time,
      hits := s.hits + 1 })
  | none =>
    let s := { s with misses := s.misses + 1 }
    let pr := s.missEvict
    (false, { s with
      cache := alistInsert item 1 pr.1,
      last_update_time := alistInsert item s.time pr.2 })

/-- `TimeDecayedCache.reset` (the decay rate and capacity are kept). -/
def TimeDecayedCache.reset (s : TimeDecayedCache) : TimeDecayedCache :=
  { s with cache := [], last_update_time := [],
           hits := 0, misses := 0, time := 0 }

/-- An item is resident iff it is a key of the `cache` score map. -/
def TimeDecayedCache.resident (s : TimeDecayedCache) (x : Nat) : Prop :=
  x ∈ keys s.cache

/-! ## ARC (`cache_arc.py`, `ARCCache`) -/

/-- Append `k` at the most-recent end of a ghost list and, as in
`_replace` and the complete-miss block, drop the least-recent entry when
the list then exceeds `c` entries. -/
def capAdd (k : Nat) (l : List Nat) (c : Nat) : List Nat :=
  if c < (odInsert k l).length then (odInsert k l).tail else odInsert k l

structure ARCCache where
  capacity : Nat
  hits : Nat
  misses : Nat
  time : Nat
  /-- `self.c`: the capacity copy taken in `__init__`. -/
  c : Nat
  /-- `self.p`: target size for T1 (kept non-negative by `max(0, ...)`). -/
  p : Nat
  t1 : List Nat
  t2 : List Nat
  b1 : List Nat
  b2 : List Nat
  deriving Repr, DecidableEq

/-- `ARCCache.__init__`. -/
def ARCCache.init (capacity : Nat) : ARCCache :=
  { capacity := capacity, hits := 0, misses := 0, time := 0,
    c := capacity, p := 0, t1 := [], t2 := [], b1 := [], b2 := [] }

/-- The `else` arm of `ARCCache._replace`: demote the least-recent T2
entry into B2 when T2 is non-empty. -/
def ARCCache.replaceT2 (s : ARCCache) : ARCCache :=
  match s.t2 with
  | old :: rest => { s with t2 := rest, b2 := capAdd old s.b2 s.c }
  | [] => s

/-- `ARCCache._replace(in_b2)`. -/
def ARCCache.replace (s : ARCCache) (in_b2 : Bool) : ARCCache :=
  if s.t1 ≠ [] ∧ ((in_b2 = true ∧ s.t1.length = s.p) ∨ s.p < s.t1.length)
  then
    match s.t1 with
    | old :: rest => { s with t1 := rest, b1 := capAdd old s.b1 s.c }
    | [] => s
  else s.replaceT2

/-- The complete-miss directory maintenance of `ARCCache.access` (the
`l1 == c` / `l1 < c` block).  `popitem` of an empty dict (reachable only
with `c = 0`) is modelled as a no-op on the empty list. -/
def ARCCache.missDirectory (s : ARCCache) : ARCCache :=
  if s.t1.length + s.b1.length = s.c then
    if s.t1.length < s.c then
      ({ s with b1 := s.b1.tail }).replace false
    else
      { s with t1 := s.t1.tail }
  else if s.t1.length + s.b1.length < s.c ∧
      s.c ≤ s.t1.length + s.b1.length + (s.t2.length + s.b2.length) then
    (if 2 * s.c ≤ s.t1.length + s.b1.length + (s.t2.length + s.b2.length)
     then
       if s.b2 ≠ [] then { s with b2 := s.b2.tail } else s
     else s).replace false
  else s

/-- The `Add to T1` eviction of `ARCCache.access`: when the resident lists
are full, demote the least-recent T1 entry into B1 (or, if T1 is empty,
the least-recent T2 entry into B2). -/
def ARCCache.makeRoom (s : ARCCache) : ARCCache :=
  if s.c ≤ s.t1.length + s.t2.length then
    match s.t1 with
    | old :: rest => { s with t1 := rest, b1 := capAdd old s.b1 s.c }
    | [] =>
      match s.t2 with
      | old :: rest => { s with t2 := rest, b2 := capAdd old s.b2 s.c }
      | [] => s
  else s

/-- `ARCCache.access`.  In the ghost-B2 branch the source runs
`del self.b2[item]` unconditionally after `_replace(True)`; when the B2 cap
pop inside `_replace` has just evicted `item` itself (reachable with
positive capacity), Python raises `KeyError` there, while this model
totalises the delete as a no-op erase and continues. -/
def ARCCache.access (s : ARCCache) (item : Nat) : Bool × ARCCache :=
  let s := { s with time := s.time + 1 }
  if item ∈ s.t1 then
    (true, { s with t1 := s.t1.erase item, t2 := odInsert item s.t2,
                    hits := s.hits + 1 })
  else if item ∈ s.t2 then
    (true, { s with t2 := moveToEnd item s.t2, hits := s.hits + 1 })
  else
    let s := { s with misses := s.misses + 1 }
    if item ∈ s.b1 then
      let delta := max 1 (s.b2.length / max 1 s.b1.length)
      let s := { s with p := min s.c (s.p + delta) }
      let s := s.replace false
      (false, { s with b1 := s.b1.erase item, t2 := odInsert item s.t2 })
    else if item ∈ s.b2 then
      let delta := max 1 (s.b1.length / max 1 s.b2.length)
      let s := { s with p := s.p - delta }
      let s := s.replace true
      (false, { s with b2 := s.b2.erase item, t2 := odInsert item s.t2 })
    else
      let s := s.missDirectory.makeRoom
      (false, { s with t1 := odInsert item s.t1 })

/-- `ARCCache.reset` (`self.c` and `self.capacity` are kept). -/
def ARCCache.reset (s : ARCCache) : ARCCache :=
  { s with p := 0, t1 := [], t2 := [], b1 := [], b2 := [],
           hits := 0, misses := 0, time := 0 }

/-- An item is resident iff it is in T1 or T2. -/
def ARCCache.resident (s : ARCCache) (x : Nat) : Prop :=
  x ∈ s.t1 ∨ x ∈ s.t2

/-- An ARC state with the time and miss counters bumped, as at the start
of every miss branch of `ARCCache.access`. -/
def ARCCache.bumpMiss (s : ARCCache) : ARCCache :=
  { s with time := s.time + 1, misses := s.misses + 1 }

/-- The state on which the ghost-B1 branch of `ARCCache.access` runs
`_replace` : time and miss counters bumped and `p` adapted upward. -/
def ARCCache.ghost1Mid (s : ARCCache) : ARCCache :=
  ({ s with
      time := s.time + 1
      misses := s.misses + 1
      p := min s.c (s.p + max 1 (s.b2.length / max 1 s.b1.length)) } :
    ARCCache).replace false

/-- The state on which the ghost-B2 branch of `ARCCache.access` runs
`_replace` : time and miss counters bumped and `p` adapted downward. -/
def ARCCache.ghost2Mid (s : ARCCache) : ARCCache :=
  ({ s with
      time := s.time + 1
      misses := s.misses + 1
      p := s.p - max 1 (s.b1.length / max 1 s.b2.length) } :
    ARCCache).replace true

/-- The state of the complete-miss branch of `ARCCache.access` right
before the new item is inserted into T1. -/
def ARCCache.missMid (s : ARCCache) : ARCCache :=
  (({ s with
      time := s.time + 1
      misses := s.misses + 1 } :
    ARCCache).missDirectory).makeRoom

/-- The size invariant of an ARC state, maintained by `access` from any
initial state with positive capacity: the resident lists fit in `c`, the
T1 directory `|T1|+|B1|` fits in `c`, both ghost lists fit in `c`, and the
adaptation target never exceeds `c`. -/
def ARCCache.Inv (s : ARCCache) : Prop :=
  s.c = s.capacity ∧ 1 ≤ s.c ∧ s.p ≤ s.c ∧
  s.t1.length + s.t2.length ≤ s.c ∧
  s.t1.length + s.b1.length ≤ s.c ∧
  s.b1.length ≤ s.c ∧ s.b2.length ≤ s.c

/-- A trace along which every `access` that misses finds its item in the
B1 ghost list at that moment (hits are allowed anywhere). -/
def ARCCache.b1Friendly (s : ARCCache) : List Nat → Bool
  | [] => true
  | i :: t => ((s.access i).1 || decide (i ∈ s.b1)) &&
      b1Friendly (s.access i).2 t

theorem mem_odInsert {x k : Nat} {l : List Nat} :
    x ∈ odInsert k l ↔ x = k ∨ x ∈ l := by
  unfold odInsert
  split
  · constructor
    · exact Or.inr
    · rintro (rfl | hx)
      · assumption
      · exact hx
  · simp [or_comm]

theorem length_odInsert_le (k : Nat) (l : List Nat) :
    (odInsert k l).length ≤ l.length + 1 := by
  unfold odInsert; split <;> simp

theorem length_odInsert_lt {k : Nat} {l : List Nat} {n : Nat}
    (h : l.length < n) : (odInsert k l).length ≤ n := by
  unfold odInsert; split
  · omega
  · simp only [List.length_append, List.length_cons, List.length_nil]
    omega

theorem nodup_odInsert {k : Nat} {l : List Nat} (h : l.Nodup) :
    (odInsert k l).Nodup := by
  unfold odInsert
  split
  · exact h
  · simpa [List.nodup_append] using ⟨h, by assumption⟩

theorem alistLookup_eq_none {k : Nat} {l : List (Nat × α)} :
    alistLookup k l = none ↔ k ∉ keys l := by
  induction l with
  | nil => simp [alistLookup, keys]
  | cons p t ih =>
    obtain ⟨a, v⟩ := p
    by_cases hak : a = k
    · subst hak
      simp [alistLookup, keys]
    · simp only [alistLookup, keys, List.map_cons, List.mem_cons, hak,
        if_false, ih]
      constructor
      · intro h1 h2
        rcases h2 with h2 | h2
        · exact hak h2.symm
        · exact h1 h2
      · intro h1 h2
        exact h1 (Or.inr h2)

theorem alistLookup_isSome_iff {k : Nat} {l : List (Nat × α)} :
    (∃ v, alistLookup k l = some v) ↔ k ∈ keys l := by
  rcases h : alistLookup k l with _ | v
  · simp [alistLookup_eq_none.mp h]
  · have : k ∈ keys l := by
      by_contra hk
      rw [alistLookup_eq_none.mpr hk] at h; cases h
    simp [this]

theorem alistLookup_append (x : Nat) (l m : List (Nat × α)) :
    alistLookup x (l ++ m) =
      match alistLookup x l with
      | some v => some v
      | none => alistLookup x m := by
  induction l with
  | nil => simp [alistLookup]
  | cons p t ih =>
    obtain ⟨a, v⟩ := p
    by_cases hax : a = x <;> simp [alistLookup, hax, ih]

theorem alistLookup_mapUpdate (x k : Nat) (v : α) (l : List (Nat × α)) :
    alistLookup x (l.map (fun p => if p.1 = k then (k, v) else p)) =
      match alistLookup x l with
      | some w => if x = k then some v else some w
      | none => none := by
  induction l with
  | nil => simp [alistLookup]
  | cons p t ih =>
    obtain ⟨a, u⟩ := p
    have hmap : ((a, u) :: t).map (fun p => if p.1 = k then (k, v) else p) =
        (if a = k then (k, v) else (a, u)) ::
          t.map (fun p => if p.1 = k then (k, v) else p) := by
      simp
    rw [hmap]
    by_cases hak : a = k
    · rw [if_pos hak]
      subst hak
      by_cases hax : x = a
      · subst hax
        simp [alistLookup]
      · have hax' : ¬ a = x := fun hh => hax hh.symm
        simp [alistLookup, hax', hax, ih]
    · rw [if_neg hak]
      by_cases hax : a = x
      · subst hax
        simp [alistLookup, hak]
      · simp [alistLookup, hax, ih]

theorem alistLookup_insert (k x : Nat) (v : α) (l : List (Nat × α)) :
    alistLookup x (alistInsert k v l) =
      if x = k then some v else alistLookup x l := by
  unfold alistInsert
  rcases h : alistLookup k l with _ | w
  · rw [alistLookup_append]
    by_cases hxk : x = k
    · subst hxk
      rw [h]
      simp [alistLookup]
    · have hkx : ¬ k = x := fun hh => hxk hh.symm
      rcases h2 : alistLookup x l with _ | u
      · simp [alistLookup, hxk, hkx, h2]
      · simp [hxk, h2]
  · rw [alistLookup_mapUpdate]
    by_cases hxk : x = k
    · subst hxk
      simp [h]
    · rcases h2 : alistLookup x l with _ | u
      · simp [hxk, h2]
      · simp [hxk, h2]

theorem keys_alistInsert_of_mem {k : Nat} {l : List (Nat × α)} (v : α)
    (h : k ∈ keys l) : keys (alistInsert k v l) = keys l := by
  unfold alistInsert
  rcases hl : alistLookup k l with _ | w
  · exact absurd h (alistLookup_eq_none.mp hl)
  · unfold keys
    rw [List.map_map]
    apply List.map_congr_left
    intro p _
    by_cases hp : p.1 = k <;> simp [hp]

theorem keys_alistInsert_of_not_mem {k : Nat} {l : List (Nat × α)} (v : α)
    (h : k ∉ keys l) : keys (alistInsert k v l) = keys l ++ [k] := by
  unfold alistInsert
  rw [alistLookup_eq_none.mpr h]
  simp [keys]

theorem length_alistInsert_of_mem {k : Nat} {l : List (Nat × α)} (v : α)
    (h : k ∈ keys l) : (alistInsert k v l).length = l.length := by
  have := keys_alistInsert_of_mem (l := l) (k := k) v h
  have h1 : (keys (alistInsert k v l)).length = (keys l).length := by rw [this]
  simpa [keys] using h1

theorem length_alistInsert_of_not_mem {k : Nat} {l : List (Nat × α)} (v : α)
    (h : k ∉ keys l) : (alistInsert k v l).length = l.length + 1 := by
  have := keys_alistInsert_of_not_mem (l := l) (k := k) v h
  have h1 : (keys (alistInsert k v l)).length = (keys l).length + 1 := by
    rw [this]; simp
  simpa [keys] using h1

theorem keys_alistErase (k : Nat) (l : List (Nat × α)) :
    keys (alistErase k l) = (keys l).filter (fun a => a ≠ k) := by
  induction l with
  | nil => rfl
  | cons p t ih =>
    by_cases hp : p.1 = k <;> simp [alistErase, keys, hp, List.filter] at * <;>
      simpa [alistErase, keys] using ih

theorem mem_keys_alistErase {x k : Nat} {l : List (Nat × α)} :
    x ∈ keys (alistErase k l) ↔ x ∈ keys l ∧ x ≠ k := by
  rw [keys_alistErase]
  simp [List.mem_filter]

theorem length_alistErase_of_mem {k : Nat} {l : List (Nat × α)}
    (hd : (keys l).Nodup) (h : k ∈ keys l) :
    (alistErase k l).length + 1 = l.length := by
  induction l with
  | nil => simp [keys] at h
  | cons p t ih =>
    have hkeys : keys (p :: t) = p.1 :: keys t := rfl
    rw [hkeys] at hd h
    simp only [List.nodup_cons] at hd
    by_cases hp : p.1 = k
    · have h1 : alistErase k (p :: t) = alistErase k t := by
        simp [alistErase, hp]
      have h2 : alistErase k t = t := by
        apply List.filter_eq_self.mpr
        intro q hq
        have hq1 : q.1 ∈ keys t := List.mem_map_of_mem Prod.fst hq
        simp only [ne_eq, decide_eq_true_eq]
        intro hqk
        exact hd.1 (by rw [hp, ← hqk]; exact hq1)
      rw [h1, h2]
      simp
    · have h1 : alistErase k (p :: t) = p :: alistErase k t := by
        simp [alistErase, hp]
      have hkt : k ∈ keys t := by
        rcases List.mem_cons.mp h with h2 | h2
        · exact absurd h2.symm hp
        · exact h2
      rw [h1]
      simp only [List.length_cons]
      rw [← ih hd.2 hkt]

theorem alistLookup_erase_ne {x k : Nat} {l : List (Nat × α)} (h : x ≠ k) :
    alistLookup x (alistErase k l) = alistLookup x l := by
  induction l with
  | nil => rfl
  | cons p t ih =>
    obtain ⟨a, v⟩ := p
    by_cases hak : a = k
    · have h1 : alistErase k ((a, v) :: t) = alistErase k t := by
        simp [alistErase, hak]
      have hax : ¬ a = x := by
        rw [hak]; exact fun hh => h hh.symm
      rw [h1, ih]
      simp [alistLookup, hax]
    · have h1 : alistErase k ((a, v) :: t) = (a, v) :: alistErase k t := by
        simp [alistErase, hak]
      rw [h1]
      by_cases hax : a = x <;> simp [alistLookup, hax, ih]

theorem runP_preserve (step : σ → Nat → Bool × σ) (P : σ → Prop)
    (h : ∀ s i, P s → P (step s i).2) :
    ∀ t s, P s → P (runP step s t) := by
  intro t
  induction t with
  | nil => intro s hs; exact hs
  | cons i t ih => intro s hs; exact ih _ (h s i hs)

theorem runP_counter (step : σ → Nat → Bool × σ) (f : σ → Nat)
    (h : ∀ s i, f (step s i).2 = f s + 1) :
    ∀ t s, f (runP step s t) = f s + t.length := by
  intro t
  induction t with
  | nil => intro s; simp [runP]
  | cons i t ih =>
    intro s
    simp only [runP, List.length_cons, ih, h]
    omega

theorem mem_moveToEnd {i x : Nat} {l : List Nat} (hi : i ∈ l) :
    x ∈ moveToEnd i l ↔ x ∈ l := by
  unfold moveToEnd
  by_cases hx : x = i
  · subst hx
    simp [hi]
  · simp only [List.mem_append, List.mem_singleton, hx, or_false]
    exact List.mem_erase_of_ne hx

theorem length_moveToEnd {i : Nat} {l : List Nat} (hi : i ∈ l) :
    (moveToEnd i l).length = l.length := by
  unfold moveToEnd
  simp only [List.length_append, List.length_singleton,
    List.length_erase_of_mem hi]
  have : 1 ≤ l.length := List.length_pos.mpr (List.ne_nil_of_mem hi)
  omega

theorem LRUCache.access_eq_hit (s : LRUCache) (i : Nat) (h : i ∈ s.cache) :
    s.access i = (true, { s with time := s.time + 1, hits := s.hits + 1,
                                 cache := moveToEnd i s.cache }) := by
  simp [access, h]

theorem LRUCache.access_eq_miss (s : LRUCache) (i : Nat) (h : i ∉ s.cache) :
    s.access i =
      (false,
        { s with
            time := s.time + 1
            misses := s.misses + 1
            cache := odInsert i
              (if s.capacity ≤ s.cache.length then s.cache.tail
               else s.cache) }) := by
  simp [access, h]

theorem LRUCache.lru_access_fields (s : LRUCache) (i : Nat) :
    (s.access i).2.capacity = s.capacity ∧
    (s.access i).2.time = s.time + 1 ∧
    (s.access i).2.hits + (s.access i).2.misses = s.hits + s.misses + 1 := by
  by_cases h : i ∈ s.cache
  · rw [access_eq_hit s i h]
    refine ⟨rfl, rfl, ?_⟩
    show s.hits + 1 + s.misses = s.hits + s.misses + 1
    omega
  · rw [access_eq_miss s i h]
    refine ⟨rfl, rfl, ?_⟩
    show s.hits + (s.misses + 1) = s.hits + s.misses + 1
    omega

theorem LRUCache.lru_access_spec (s : LRUCache) (i : Nat) :
    ((s.access i).1 = true ↔ s.resident i) ∧
    ((s.access i).1 = true →
      (s.access i).2.hits = s.hits + 1 ∧ (s.access i).2.misses = s.misses ∧
      ∀ x, (s.access i).2.resident x ↔ s.resident x) ∧
    ((s.access i).1 = false →
      (s.access i).2.misses = s.misses + 1 ∧ (s.access i).2.hits = s.hits ∧
      (s.access i).2.resident i) := by
  by_cases h : i ∈ s.cache
  · rw [access_eq_hit s i h]
    refine ⟨by simp [resident, h], fun _ => ⟨rfl, rfl, fun x => ?_⟩, by simp⟩
    simpa [resident] using mem_moveToEnd (x := x) h
  · rw [access_eq_miss s i h]
    refine ⟨by simp [resident, h], by simp, fun _ => ⟨rfl, rfl, ?_⟩⟩
    simp [resident, mem_odInsert]

theorem LRUCache.lru_access_size (s : LRUCache) (i : Nat) (hc : 1 ≤ s.capacity)
    (h : s.cache.length ≤ s.capacity) :
    (s.access i).2.cache.length ≤ s.capacity := by
  by_cases hm : i ∈ s.cache
  · rw [access_eq_hit s i hm]
    simpa [length_moveToEnd hm] using h
  · rw [access_eq_miss s i hm]
    by_cases hfull : s.capacity ≤ s.cache.length
    · simp only [hfull, if_true]
      apply length_odInsert_lt
      have h1 : 1 ≤ s.cache.length := le_trans hc hfull
      simp only [List.length_tail]
      omega
    · simp only [hfull, if_false]
      exact length_odInsert_lt (by omega)

theorem LFUCache.access_hit_out (s : LFUCache) (i freq : Nat)
    (h : alistLookup i s.cache = some freq) : (s.access i).1 = true := by
  simp [access, h]

theorem LFUCache.access_hit_fields (s : LFUCache) (i freq : Nat)
    (h : alistLookup i s.cache = some freq) :
    (s.access i).2.capacity = s.capacity ∧
    (s.access i).2.time = s.time + 1 ∧
    (s.access i).2.hits = s.hits + 1 ∧
    (s.access i).2.misses = s.misses := by
  simp [access, h]

theorem LFUCache.access_hit_cache (s : LFUCache) (i freq : Nat)
    (h : alistLookup i s.cache = some freq) :
    (s.access i).2.cache = alistInsert i (freq + 1) s.cache := by
  simp [access, h]

theorem LFUCache.access_hit_ft (s : LFUCache) (i freq f : Nat)
    (h : alistLookup i s.cache = some freq) :
    (s.access i).2.freq_to_items f =
      if f = freq + 1 then odInsert i (s.freq_to_items (freq + 1))
      else if f = freq then (s.freq_to_items freq).erase i
      else s.freq_to_items f := by
  simp only [access, h]
  by_cases h1 : f = freq + 1
  · subst h1
    simp [Nat.succ_ne_self]
  · by_cases h2 : f = freq <;> simp [h1, h2]

theorem LFUCache.access_hit_minf (s : LFUCache) (i freq : Nat)
    (h : alistLookup i s.cache = some freq) :
    (s.access i).2.min_freq =
      if (s.freq_to_items freq).erase i = [] ∧ s.min_freq = freq
      then s.min_freq + 1 else s.min_freq := by
  simp [access, h]

theorem LFUCache.access_miss_out (s : LFUCache) (i : Nat)
    (h : alistLookup i s.cache = none) : (s.access i).1 = false := by
  simp [access, h]

theorem LFUCache.access_miss_fields (s : LFUCache) (i : Nat)
    (h : alistLookup i s.cache = none) :
    (s.access i).2.capacity = s.capacity ∧
    (s.access i).2.time = s.time + 1 ∧
    (s.access i).2.hits = s.hits ∧
    (s.access i).2.misses = s.misses + 1 ∧
    (s.access i).2.min_freq = 1 := by
  simp [access, h]

theorem LFUCache.access_miss_noevict_cache (s : LFUCache) (i : Nat)
    (h : alistLookup i s.cache = none) (hlen : ¬ s.capacity ≤ s.cache.length) :
    (s.access i).2.cache = alistInsert i 1 s.cache := by
  simp [access, h, hlen]

theorem LFUCache.access_miss_noevict_ft (s : LFUCache) (i f : Nat)
    (h : alistLookup i s.cache = none) (hlen : ¬ s.capacity ≤ s.cache.length) :
    (s.access i).2.freq_to_items f =
      if f = 1 then odInsert i (s.freq_to_items 1) else s.freq_to_items f := by
  simp only [access, h, hlen]
  by_cases h1 : f = 1 <;> simp [h1, hlen]

theorem LFUCache.access_miss_evict_cache (s : LFUCache) (i e : Nat)
    (h : alistLookup i s.cache = none) (hlen : s.capacity ≤ s.cache.length)
    (he : (s.freq_to_items s.min_freq).head? = some e) :
    (s.access i).2.cache = alistInsert i 1 (alistErase e s.cache) := by
  simp [access, h, hlen, he]

theorem LFUCache.access_miss_evict_ft (s : LFUCache) (i e f : Nat)
    (h : alistLookup i s.cache = none) (hlen : s.capacity ≤ s.cache.length)
    (he : (s.freq_to_items s.min_freq).head? = some e) :
    (s.access i).2.freq_to_items f =
      if f = 1 then
        odInsert i (if 1 = s.min_freq then (s.freq_to_items s.min_freq).tail
                    else s.freq_to_items 1)
      else if f = s.min_freq then (s.freq_to_items s.min_freq).tail
      else s.freq_to_items f := by
  simp only [access, h, hlen, he]
  by_cases h1 : f = 1
  · subst h1
    simp [hlen, he]
  · by_cases h2 : f = s.min_freq <;> simp [h1, h2, hlen, he]

theorem LFUCache.access_miss_headnone_cache (s : LFUCache) (i : Nat)
    (h : alistLookup i s.cache = none) (hlen : s.capacity ≤ s.cache.length)
    (he : (s.freq_to_items s.min_freq).head? = none) :
    (s.access i).2.cache = alistInsert i 1 s.cache := by
  simp [access, h, hlen, he]

theorem LFUCache.access_miss_headnone_ft (s : LFUCache) (i f : Nat)
    (h : alistLookup i s.cache = none) (hlen : s.capacity ≤ s.cache.length)
    (he : (s.freq_to_items s.min_freq).head? = none) :
    (s.access i).2.freq_to_items f =
      if f = 1 then odInsert i (s.freq_to_items 1) else s.freq_to_items f := by
  simp only [access, h, hlen, he]
  by_cases h1 : f = 1 <;> simp [h1, hlen, he]

theorem nodup_tail {l : List Nat} (h : l.Nodup) : l.tail.Nodup := by
  cases l with
  | nil => exact h
  | cons a t => exact (List.nodup_cons.mp h).2

theorem eq_cons_of_headq {l : List Nat} {e : Nat} (h : l.head? = some e) :
    l = e :: l.tail := by
  cases l with
  | nil => cases h
  | cons a t =>
    simp only [List.head?_cons, Option.some.injEq] at h
    rw [h]
    rfl

theorem LFUCache.WF_init (c : Nat) : (LFUCache.init c).WF := by
  refine ⟨List.nodup_nil, fun f => List.nodup_nil, fun f x hx => ?_,
    fun h => ?_⟩
  · cases hx
  · exact absurd rfl h

theorem LFUCache.WF_hit (s : LFUCache) (i freq : Nat) (hwf : s.WF)
    (hl : alistLookup i s.cache = some freq) : (s.access i).2.WF := by
  obtain ⟨hnk, hnb, hcon, hne⟩ := hwf
  have hik : i ∈ keys s.cache := alistLookup_isSome_iff.mp ⟨freq, hl⟩
  have hcache := access_hit_cache s i freq hl
  have hminf := access_hit_minf s i freq hl
  refine ⟨?_, ?_, ?_, ?_⟩
  · rw [hcache, keys_alistInsert_of_mem _ hik]
    exact hnk
  · intro f
    rw [access_hit_ft s i freq f hl]
    by_cases h1 : f = freq + 1
    · rw [if_pos h1]
      exact nodup_odInsert (hnb _)
    · rw [if_neg h1]
      by_cases h2 : f = freq
      · rw [if_pos h2]
        exact (hnb freq).erase i
      · rw [if_neg h2]
        exact hnb f
  · intro f x hx
    rw [access_hit_ft s i freq f hl] at hx
    rw [hcache, alistLookup_insert]
    by_cases h1 : f = freq + 1
    · rw [if_pos h1] at hx
      subst h1
      rcases mem_odInsert.mp hx with rfl | hx2
      · rw [if_pos rfl]
      · have hlx := hcon (freq + 1) x hx2
        have hxi : ¬ x = i := by
          intro hxe
          subst hxe
          rw [hl] at hlx
          have := Option.some.inj hlx
          omega
        rw [if_neg hxi]
        exact hlx
    · rw [if_neg h1] at hx
      by_cases h2 : f = freq
      · rw [if_pos h2] at hx
        have hxi : x ≠ i := ((hnb freq).mem_erase_iff.mp hx).1
        have hxbucket : x ∈ s.freq_to_items freq := List.mem_of_mem_erase hx
        rw [if_neg hxi, h2]
        exact hcon freq x hxbucket
      · rw [if_neg h2] at hx
        have hlx := hcon f x hx
        have hxi : ¬ x = i := by
          intro hxe
          subst hxe
          rw [hl] at hlx
          exact h2 (Option.some.inj hlx).symm
        rw [if_neg hxi]
        exact hlx
  · intro _
    rw [hminf]
    by_cases hb : (s.freq_to_items freq).erase i = [] ∧ s.min_freq = freq
    · rw [if_pos hb]
      rw [access_hit_ft s i freq (s.min_freq + 1) hl, hb.2, if_pos rfl]
      exact List.ne_nil_of_mem (mem_odInsert.mpr (Or.inl rfl))
    · rw [if_neg hb]
      rw [access_hit_ft s i freq s.min_freq hl]
      by_cases h1 : s.min_freq = freq + 1
      · rw [if_pos h1]
        exact List.ne_nil_of_mem (mem_odInsert.mpr (Or.inl rfl))
      · rw [if_neg h1]
        by_cases h2 : s.min_freq = freq
        · rw [if_pos h2]
          intro hempty
          exact hb ⟨hempty, h2⟩
        · rw [if_neg h2]
          apply hne
          intro hce
          rw [hce] at hl
          cases hl

theorem LFUCache.WF_miss_noevict (s : LFUCache) (i : Nat) (hwf : s.WF)
    (hl : alistLookup i s.cache = none)
    (hlen : ¬ s.capacity ≤ s.cache.length) : (s.access i).2.WF := by
  obtain ⟨hnk, hnb, hcon, hne⟩ := hwf
  have hik : i ∉ keys s.cache := alistLookup_eq_none.mp hl
  have hcache := access_miss_noevict_cache s i hl hlen
  have hminf := (access_miss_fields s i hl).2.2.2.2
  refine ⟨?_, ?_, ?_, ?_⟩
  · rw [hcache, keys_alistInsert_of_not_mem _ hik]
    refine List.Nodup.append hnk (List.nodup_singleton i) ?_
    intro x hx hy
    simp only [List.mem_singleton] at hy
    subst hy
    exact hik hx
  · intro f
    rw [access_miss_noevict_ft s i f hl hlen]
    by_cases h1 : f = 1
    · rw [if_pos h1]
      exact nodup_odInsert (hnb 1)
    · rw [if_neg h1]
      exact hnb f
  · intro f x hx
    rw [access_miss_noevict_ft s i f hl hlen] at hx
    rw [hcache, alistLookup_insert]
    by_cases h1 : f = 1
    · rw [if_pos h1] at hx
      subst h1
      rcases mem_odInsert.mp hx with rfl | hx2
      · rw [if_pos rfl]
      · have hlx := hcon 1 x hx2
        have hxi : ¬ x = i := by
          intro hxe
          subst hxe
          rw [hl] at hlx
          cases hlx
        rw [if_neg hxi]
        exact hlx
    · rw [if_neg h1] at hx
      have hlx := hcon f x hx
      have hxi : ¬ x = i := by
        intro hxe
        subst hxe
        rw [hl] at hlx
        cases hlx
      rw [if_neg hxi]
      exact hlx
  · intro _
    rw [hminf, access_miss_noevict_ft s i 1 hl hlen, if_pos rfl]
    exact List.ne_nil_of_mem (mem_odInsert.mpr (Or.inl rfl))

theorem LFUCache.WF_miss_headnone (s : LFUCache) (i : Nat) (hwf : s.WF)
    (hl : alistLookup i s.cache = none) (hlen : s.capacity ≤ s.cache.length)
    (hh : (s.freq_to_items s.min_freq).head? = none) : (s.access i).2.WF := by
  obtain ⟨hnk, hnb, hcon, hne⟩ := hwf
  have hbempty : s.freq_to_items s.min_freq = [] := by
    cases hcase : s.freq_to_items s.min_freq with
    | nil => rfl
    | cons a t => rw [hcase] at hh; cases hh
  have hces : s.cache = [] := by
    by_contra hc
    exact hne hc hbempty
  have hball : ∀ f x, x ∈ s.freq_to_items f → False := by
    intro f x hx
    have := hcon f x hx
    rw [hces] at this
    cases this
  have hcache := access_miss_headnone_cache s i hl hlen hh
  have hminf := (access_miss_fields s i hl).2.2.2.2
  refine ⟨?_, ?_, ?_, ?_⟩
  · rw [hcache, keys_alistInsert_of_not_mem _ (alistLookup_eq_none.mp hl),
      hces]
    simp [keys]
  · intro f
    rw [access_miss_headnone_ft s i f hl hlen hh]
    by_cases h1 : f = 1
    · rw [if_pos h1]
      exact nodup_odInsert (hnb 1)
    · rw [if_neg h1]
      exact hnb f
  · intro f x hx
    rw [access_miss_headnone_ft s i f hl hlen hh] at hx
    rw [hcache, alistLookup_insert]
    by_cases h1 : f = 1
    · rw [if_pos h1] at hx
      subst h1
      rcases mem_odInsert.mp hx with rfl | hx2
      · rw [if_pos rfl]
      · exact (hball 1 x hx2).elim
    · rw [if_neg h1] at hx
      exact (hball f x hx).elim
  · intro _
    rw [hminf, access_miss_headnone_ft s i 1 hl hlen hh, if_pos rfl]
    exact List.ne_nil_of_mem (mem_odInsert.mpr (Or.inl rfl))

theorem LFUCache.WF_miss_evict (s : LFUCache) (i e : Nat) (hwf : s.WF)
    (hl : alistLookup i s.cache = none) (hlen : s.capacity ≤ s.cache.length)
    (hh : (s.freq_to_items s.min_freq).head? = some e) : (s.access i).2.WF := by
  obtain ⟨hnk, hnb, hcon, hne⟩ := hwf
  have hik : i ∉ keys s.cache := alistLookup_eq_none.mp hl
  have hbucket : s.freq_to_items s.min_freq
      = e :: (s.freq_to_items s.min_freq).tail := eq_cons_of_headq hh
  have hemem : e ∈ s.freq_to_items s.min_freq := by
    rw [hbucket]
    exact List.mem_cons_self e _
  have helook : alistLookup e s.cache = some s.min_freq :=
    hcon s.min_freq e hemem
  have hetail : e ∉ (s.freq_to_items s.min_freq).tail := by
    have hn := hnb s.min_freq
    rw [hbucket] at hn
    exact (List.nodup_cons.mp hn).1
  have htailsub : ∀ x, x ∈ (s.freq_to_items s.min_freq).tail →
      x ∈ s.freq_to_items s.min_freq := by
    intro x hx
    rw [hbucket]
    exact List.mem_cons_of_mem e hx
  have hik1 : i ∉ keys (alistErase e s.cache) := fun hx =>
    hik (mem_keys_alistErase.mp hx).1
  have hcache := access_miss_evict_cache s i e hl hlen hh
  have hminf := (access_miss_fields s i hl).2.2.2.2
  have hlook' : ∀ x, alistLookup x (s.access i).2.cache =
      if x = i then some 1
      else if x = e then none
      else alistLookup x s.cache := by
    intro x
    rw [hcache, alistLookup_insert]
    by_cases h1 : x = i
    · rw [if_pos h1, if_pos h1]
    · rw [if_neg h1, if_neg h1]
      by_cases h2 : x = e
      · subst h2
        rw [if_pos rfl]
        apply alistLookup_eq_none.mpr
        intro hx
        exact (mem_keys_alistErase.mp hx).2 rfl
      · rw [if_neg h2]
        exact alistLookup_erase_ne h2
  refine ⟨?_, ?_, ?_, ?_⟩
  · rw [hcache, keys_alistInsert_of_not_mem _ hik1]
    refine List.Nodup.append ?_ (List.nodup_singleton i) ?_
    · rw [keys_alistErase]
      exact hnk.filter _
    · intro x hx hy
      simp only [List.mem_singleton] at hy
      subst hy
      exact hik1 hx
  · intro f
    rw [access_miss_evict_ft s i e f hl hlen hh]
    by_cases h1 : f = 1
    · rw [if_pos h1]
      by_cases h2 : (1 : Nat) = s.min_freq
      · rw [if_pos h2]
        exact nodup_odInsert (nodup_tail (hnb s.min_freq))
      · rw [if_neg h2]
        exact nodup_odInsert (hnb 1)
    · rw [if_neg h1]
      by_cases h2 : f = s.min_freq
      · rw [if_pos h2]
        exact nodup_tail (hnb s.min_freq)
      · rw [if_neg h2]
        exact hnb f
  · intro f x hx
    rw [access_miss_evict_ft s i e f hl hlen hh] at hx
    rw [hlook' x]
    by_cases h1 : f = 1
    · rw [if_pos h1] at hx
      subst h1
      rcases mem_odInsert.mp hx with rfl | hx2
      · rw [if_pos rfl]
      · by_cases h2 : (1 : Nat) = s.min_freq
        · rw [if_pos h2] at hx2
          have hxmem := htailsub x hx2
          have hlx := hcon s.min_freq x hxmem
          have hxi : ¬ x = i := by
            intro hxe
            subst hxe
            rw [hl] at hlx
            cases hlx
          have hxe : ¬ x = e := by
            intro hxe
            subst hxe
            exact hetail hx2
          rw [if_neg hxi, if_neg hxe, hlx, ← h2]
        · rw [if_neg h2] at hx2
          have hlx := hcon 1 x hx2
          have hxi : ¬ x = i := by
            intro hxe
            subst hxe
            rw [hl] at hlx
            cases hlx
          have hxe : ¬ x = e := by
            intro hxe
            subst hxe
            rw [helook] at hlx
            exact h2 (Option.some.inj hlx).symm
          rw [if_neg hxi, if_neg hxe]
          exact hlx
    · rw [if_neg h1] at hx
      by_cases h2 : f = s.min_freq
      · rw [if_pos h2] at hx
        have hxmem := htailsub x hx
        have hlx := hcon s.min_freq x hxmem
        have hxi : ¬ x = i := by
          intro hxe
          subst hxe
          rw [hl] at hlx
          cases hlx
        have hxe : ¬ x = e := by
          intro hxe
          subst hxe
          exact hetail hx
        rw [if_neg hxi, if_neg hxe, hlx, h2]
      · rw [if_neg h2] at hx
        have hlx := hcon f x hx
        have hxi : ¬ x = i := by
          intro hxe
          subst hxe
          rw [hl] at hlx
          cases hlx
        have hxe : ¬ x = e := by
          intro hxe
          subst hxe
          rw [helook] at hlx
          exact h2 (Option.some.inj hlx).symm
        rw [if_neg hxi, if_neg hxe]
        exact hlx
  · intro _
    rw [hminf, access_miss_evict_ft s i e 1 hl hlen hh, if_pos rfl]
    exact List.ne_nil_of_mem (mem_odInsert.mpr (Or.inl rfl))

theorem LFUCache.access_WF (s : LFUCache) (i : Nat) (hwf : s.WF) :
    (s.access i).2.WF := by
  rcases hl : alistLookup i s.cache with _ | freq
  · by_cases hlen : s.capacity ≤ s.cache.length
    · rcases hh : (s.freq_to_items s.min_freq).head? with _ | e
      · exact WF_miss_headnone s i hwf hl hlen hh
      · exact WF_miss_evict s i e hwf hl hlen hh
    · exact WF_miss_noevict s i hwf hl hlen
  · exact WF_hit s i freq hwf hl

theorem LFUCache.lfu_access_size (s : LFUCache) (i : Nat) (hwf : s.WF)
    (hc : 1 ≤ s.capacity) (h : s.cache.length ≤ s.capacity) :
    (s.access i).2.cache.length ≤ s.capacity := by
  rcases hl : alistLookup i s.cache with _ | freq
  · have hik : i ∉ keys s.cache := alistLookup_eq_none.mp hl
    by_cases hlen : s.capacity ≤ s.cache.length
    · rcases hh : (s.freq_to_items s.min_freq).head? with _ | e
      · exfalso
        obtain ⟨hnk, hnb, hcon, hne⟩ := hwf
        have hbempty : s.freq_to_items s.min_freq = [] := by
          cases hcase : s.freq_to_items s.min_freq with
          | nil => rfl
          | cons a t => rw [hcase] at hh; cases hh
        have hces : s.cache = [] := by
          by_contra hc2
          exact hne hc2 hbempty
        rw [hces] at hlen
        simp only [List.length_nil] at hlen
        omega
      · obtain ⟨hnk, hnb, hcon, hne⟩ := hwf
        have hbucket := eq_cons_of_headq hh
        have hemem : e ∈ s.freq_to_items s.min_freq := by
          rw [hbucket]
          exact List.mem_cons_self e _
        have hekeys : e ∈ keys s.cache :=
          alistLookup_isSome_iff.mp ⟨s.min_freq, hcon s.min_freq e hemem⟩
        have hik1 : i ∉ keys (alistErase e s.cache) := fun hx =>
          hik (mem_keys_alistErase.mp hx).1
        rw [access_miss_evict_cache s i e hl hlen hh,
          length_alistInsert_of_not_mem _ hik1]
        have := length_alistErase_of_mem hnk hekeys
        omega
    · rw [access_miss_noevict_cache s i hl hlen,
        length_alistInsert_of_not_mem _ hik]
      omega
  · have hik : i ∈ keys s.cache := alistLookup_isSome_iff.mp ⟨freq, hl⟩
    rw [access_hit_cache s i freq hl, length_alistInsert_of_mem _ hik]
    exact h

theorem keys_map_values (l : List (Nat × α)) (f : Nat × α → β) :
    keys (l.map (fun p => (p.1, f p))) = keys l := by
  unfold keys
  rw [List.map_map]
  rfl

theorem mem_keys_alistInsert_self (k : Nat) (v : α) (l : List (Nat × α)) :
    k ∈ keys (alistInsert k v l) := by
  by_cases h : k ∈ keys l
  · rw [keys_alistInsert_of_mem v h]
    exact h
  · rw [keys_alistInsert_of_not_mem v h]
    simp

theorem tdcFold_acc_or_mem :
    ∀ (l : List (Nat × ℚ)) (acc : Option (Nat × ℚ)),
      (l.foldl tdcStep acc = acc) ∨
      (∃ p, p ∈ l ∧ l.foldl tdcStep acc = some p) := by
  intro l
  induction l with
  | nil => intro acc; exact Or.inl rfl
  | cons q t ih =>
    intro acc
    have hstep : tdcStep acc q = acc ∨ tdcStep acc q = some q := by
      rcases acc with _ | r
      · exact Or.inr rfl
      · unfold tdcStep
        by_cases hq : q.2 < r.2
        · simp [hq]
        · simp [hq]
    rw [List.foldl_cons]
    rcases ih (tdcStep acc q) with h1 | h1
    · rcases hstep with h2 | h2
      · rw [h1, h2]
        exact Or.inl rfl
      · rw [h1, h2]
        exact Or.inr ⟨q, List.mem_cons_self q t, rfl⟩
    · obtain ⟨p, hp, hp2⟩ := h1
      rw [hp2]
      exact Or.inr ⟨p, List.mem_cons_of_mem q hp, rfl⟩

theorem tdcFold_some : ∀ (t : List (Nat × ℚ)) (r : Nat × ℚ),
    ∃ p, t.foldl tdcStep (some r) = some p := by
  intro t
  induction t with
  | nil => intro r; exact ⟨r, rfl⟩
  | cons q t ih =>
    intro r
    rw [List.foldl_cons]
    unfold tdcStep
    by_cases hq : q.2 < r.2
    · simp only [hq, if_true]
      exact ih q
    · simp only [hq, if_false]
      exact ih r

theorem tdcEvictMin_of_ne_nil {l : List (Nat × ℚ)} (h : l ≠ []) :
    ∃ m, tdcEvictMin l = some m := by
  cases l with
  | nil => exact absurd rfl h
  | cons q t =>
    unfold tdcEvictMin
    rw [List.foldl_cons]
    obtain ⟨p, hp⟩ := tdcFold_some t q
    rw [show tdcStep none q = some q from rfl, hp]
    exact ⟨p.1, rfl⟩

theorem tdcEvictMin_mem {l : List (Nat × ℚ)} {m : Nat}
    (h : tdcEvictMin l = some m) : m ∈ keys l := by
  unfold tdcEvictMin at h
  rcases tdcFold_acc_or_mem l none with h1 | h1
  · rw [h1] at h
    cases h
  · obtain ⟨p, hp, hp2⟩ := h1
    rw [hp2] at h
    simp only [Option.map_some', Option.some.injEq] at h
    subst h
    exact List.mem_map_of_mem Prod.fst hp

theorem TimeDecayedCache.missEvict_keys (s : TimeDecayedCache) :
    (keys (s.missEvict).1 = keys s.cache ∧
      (¬ s.capacity ≤ s.cache.length ∨ s.cache = [])) ∨
    (∃ m, m ∈ keys s.cache ∧
      keys (s.missEvict).1 = (keys s.cache).filter (fun a => a ≠ m)) := by
  unfold missEvict
  by_cases hlen : s.capacity ≤ s.cache.length
  · rw [if_pos hlen]
    rcases hm : tdcEvictMin (s.cache.map (fun p => (p.1, s.updateScore p.1)))
      with _ | m
    · left
      have hnil : s.cache = [] := by
        cases hc : s.cache with
        | nil => rfl
        | cons q t =>
          exfalso
          have hne : (s.cache.map (fun p => (p.1, s.updateScore p.1))) ≠ [] := by
            rw [hc]
            simp
          obtain ⟨m, hm2⟩ := tdcEvictMin_of_ne_nil hne
          rw [hm] at hm2
          cases hm2
      simp only [hm]
      exact ⟨keys_map_values s.cache _, Or.inr hnil⟩
    · right
      simp only [hm]
      refine ⟨m, ?_, ?_⟩
      · have := tdcEvictMin_mem hm
        rwa [keys_map_values] at this
      · rw [keys_alistErase, keys_map_values]
  · rw [if_neg hlen]
    exact Or.inl ⟨rfl, Or.inl hlen⟩

theorem nodup_append_singleton {l : List Nat} {i : Nat} (h : l.Nodup)
    (hi : i ∉ l) : (l ++ [i]).Nodup := by
  refine List.Nodup.append h (List.nodup_singleton i) ?_
  intro x hx hy
  simp only [List.mem_singleton] at hy
  subst hy
  exact hi hx

theorem TimeDecayedCache.tdc_access_fields (s : TimeDecayedCache) (i : Nat) :
    (s.access i).2.capacity = s.capacity ∧
    (s.access i).2.decay_rate = s.decay_rate ∧
    (s.access i).2.time = s.time + 1 := by
  rcases hl : alistLookup i s.cache with _ | sc
  · simp [access, hl]
  · simp [access, hl]

theorem TimeDecayedCache.access_hit_counters (s : TimeDecayedCache) (i : Nat)
    (sc : ℚ) (hl : alistLookup i s.cache = some sc) :
    (s.access i).1 = true ∧ (s.access i).2.hits = s.hits + 1 ∧
    (s.access i).2.misses = s.misses := by
  simp [access, hl]

theorem TimeDecayedCache.access_miss_counters (s : TimeDecayedCache) (i : Nat)
    (hl : alistLookup i s.cache = none) :
    (s.access i).1 = false ∧ (s.access i).2.hits = s.hits ∧
    (s.access i).2.misses = s.misses + 1 := by
  simp [access, hl]

theorem TimeDecayedCache.access_hit_keys (s : TimeDecayedCache) (i : Nat)
    (sc : ℚ) (hl : alistLookup i s.cache = some sc) :
    keys (s.access i).2.cache = keys s.cache := by
  have hik : i ∈ keys s.cache := alistLookup_isSome_iff.mp ⟨sc, hl⟩
  have hc : (s.access i).2.cache =
      alistInsert i
        (({ s with time := s.time + 1 } : TimeDecayedCache).updateScore i + 1)
        s.cache := by
    simp [access, hl]
  rw [hc, keys_alistInsert_of_mem _ hik]

theorem TimeDecayedCache.access_miss_cache (s : TimeDecayedCache) (i : Nat)
    (hl : alistLookup i s.cache = none) :
    (s.access i).2.cache =
      alistInsert i 1
        (({ s with time := s.time + 1, misses := s.misses + 1 } :
          TimeDecayedCache).missEvict).1 := by
  simp [access, hl]

theorem TimeDecayedCache.access_miss_keys (s : TimeDecayedCache) (i : Nat)
    (hl : alistLookup i s.cache = none) :
    (keys (s.access i).2.cache = keys s.cache ++ [i] ∧
      (¬ s.capacity ≤ s.cache.length ∨ s.cache = [])) ∨
    (∃ m, m ∈ keys s.cache ∧
      keys (s.access i).2.cache = keys (alistErase m s.cache) ++ [i]) := by
  have hik : i ∉ keys s.cache := alistLookup_eq_none.mp hl
  rw [access_miss_cache s i hl]
  rcases missEvict_keys
    ({ s with time := s.time + 1, misses := s.misses + 1 } :
      TimeDecayedCache) with ⟨hk, hside⟩ | ⟨m, hmem, hk⟩
  · left
    have hik1 : i ∉ keys
        (({ s with time := s.time + 1, misses := s.misses + 1 } :
          TimeDecayedCache).missEvict).1 := by
      rw [hk]
      exact hik
    rw [keys_alistInsert_of_not_mem _ hik1, hk]
    exact ⟨rfl, hside⟩
  · right
    refine ⟨m, hmem, ?_⟩
    have hik1 : i ∉ keys
        (({ s with time := s.time + 1, misses := s.misses + 1 } :
          TimeDecayedCache).missEvict).1 := by
      rw [hk]
      intro hx
      exact hik (List.mem_of_mem_filter hx)
    rw [keys_alistInsert_of_not_mem _ hik1, hk, keys_alistErase]

theorem TimeDecayedCache.access_nodup (s : TimeDecayedCache) (i : Nat)
    (h : (keys s.cache).Nodup) : (keys (s.access i).2.cache).Nodup := by
  rcases hl : alistLookup i s.cache with _ | sc
  · have hik : i ∉ keys s.cache := alistLookup_eq_none.mp hl
    rcases access_miss_keys s i hl with ⟨hk, _⟩ | ⟨m, hmem, hk⟩
    · rw [hk]
      exact nodup_append_singleton h hik
    · rw [hk, keys_alistErase]
      refine nodup_append_singleton (h.filter _) ?_
      intro hx
      exact hik (List.mem_of_mem_filter hx)
  · rw [access_hit_keys s i sc hl]
    exact h

theorem TimeDecayedCache.tdc_access_size (s : TimeDecayedCache) (i : Nat)
    (hnd : (keys s.cache).Nodup) (hc : 1 ≤ s.capacity)
    (h : s.cache.length ≤ s.capacity) :
    (s.access i).2.cache.length ≤ s.capacity := by
  have hlenkeys : ∀ (l : List (Nat × ℚ)), (keys l).length = l.length := by
    intro l
    unfold keys
    exact List.length_map l Prod.fst
  rcases hl : alistLookup i s.cache with _ | sc
  · rcases access_miss_keys s i hl with ⟨hk, hside⟩ | ⟨m, hmem, hk⟩
    · have h1 : (keys (s.access i).2.cache).length = s.cache.length + 1 := by
        rw [hk]
        simp [hlenkeys]
      rw [← hlenkeys]
      rw [h1]
      rcases hside with hside | hside
      · omega
      · rw [hside]
        simpa using hc
    · have h2 := length_alistErase_of_mem hnd hmem
      have h1 : (keys (s.access i).2.cache).length
          = (alistErase m s.cache).length + 1 := by
        rw [hk]
        simp [hlenkeys]
      rw [← hlenkeys, h1]
      omega
  · rw [← hlenkeys, access_hit_keys s i sc hl, hlenkeys]
    exact h

theorem TimeDecayedCache.tdc_access_spec (s : TimeDecayedCache) (i : Nat) :
    ((s.access i).1 = true ↔ s.resident i) ∧
    ((s.access i).1 = true →
      (s.access i).2.hits = s.hits + 1 ∧ (s.access i).2.misses = s.misses ∧
      ∀ x, (s.access i).2.resident x ↔ s.resident x) ∧
    ((s.access i).1 = false →
      (s.access i).2.misses = s.misses + 1 ∧ (s.access i).2.hits = s.hits ∧
      (s.access i).2.resident i) := by
  rcases hl : alistLookup i s.cache with _ | sc
  · have hik : i ∉ keys s.cache := alistLookup_eq_none.mp hl
    have hcnt := access_miss_counters s i hl
    refine ⟨by simp [hcnt.1, resident, hik], by simp [hcnt.1],
      fun _ => ⟨hcnt.2.2, hcnt.2.1, ?_⟩⟩
    unfold resident
    rw [access_miss_cache s i hl]
    exact mem_keys_alistInsert_self i 1 _
  · have hik : i ∈ keys s.cache := alistLookup_isSome_iff.mp ⟨sc, hl⟩
    have hcnt := access_hit_counters s i sc hl
    refine ⟨by simp [hcnt.1, resident, hik],
      fun _ => ⟨hcnt.2.1, hcnt.2.2, fun x => ?_⟩, by simp [hcnt.1]⟩
    unfold resident
    rw [access_hit_keys s i sc hl]

theorem capAdd_le {k : Nat} {l : List Nat} {c : Nat} (h : l.length ≤ c) :
    (capAdd k l c).length ≤ c := by
  unfold capAdd
  have h1 := length_odInsert_le k l
  split
  · next h2 =>
    simp only [List.length_tail]
    omega
  · next h2 => omega

theorem length_capAdd_le_succ (k : Nat) (l : List Nat) (c : Nat) :
    (capAdd k l c).length ≤ l.length + 1 := by
  unfold capAdd
  have h1 := length_odInsert_le k l
  split
  · simp only [List.length_tail]
    omega
  · omega

theorem length_erase_le (a : Nat) (l : List Nat) :
    (l.erase a).length ≤ l.length :=
  (l.erase_sublist a).length_le

theorem ARCCache.replaceT2_fields (s : ARCCache) :
    s.replaceT2.c = s.c ∧ s.replaceT2.capacity = s.capacity ∧
    s.replaceT2.p = s.p ∧ s.replaceT2.hits = s.hits ∧
    s.replaceT2.misses = s.misses ∧ s.replaceT2.time = s.time ∧
    s.replaceT2.t1 = s.t1 ∧ s.replaceT2.b1 = s.b1 := by
  rcases h : s.t2 with _ | ⟨old, rest⟩ <;> simp [replaceT2, h]

theorem ARCCache.replace_fields (s : ARCCache) (b : Bool) :
    (s.replace b).c = s.c ∧ (s.replace b).capacity = s.capacity ∧
    (s.replace b).p = s.p ∧ (s.replace b).hits = s.hits ∧
    (s.replace b).misses = s.misses ∧ (s.replace b).time = s.time := by
  unfold replace
  split
  · rcases h : s.t1 with _ | ⟨old, rest⟩ <;> simp [h]
  · have hf := replaceT2_fields s
    exact ⟨hf.1, hf.2.1, hf.2.2.1, hf.2.2.2.1, hf.2.2.2.2.1, hf.2.2.2.2.2.1⟩

theorem ARCCache.replace_sizes (s : ARCCache) (b : Bool)
    (hb1 : s.b1.length ≤ s.c) (hb2 : s.b2.length ≤ s.c) :
    (s.replace b).t1.length + (s.replace b).t2.length
      ≤ s.t1.length + s.t2.length ∧
    (s.replace b).t1.length + (s.replace b).b1.length
      ≤ s.t1.length + s.b1.length ∧
    (s.replace b).b1.length ≤ s.c ∧ (s.replace b).b2.length ≤ s.c := by
  unfold replace
  split
  · next hcond =>
    rcases h : s.t1 with _ | ⟨old, rest⟩
    · simp only [h]
      exact ⟨le_refl _, le_refl _, hb1, hb2⟩
    · simp only [h]
      have hcap := length_capAdd_le_succ old s.b1 s.c
      refine ⟨?_, ?_, capAdd_le hb1, hb2⟩
      · simp only [h, List.length_cons]
        omega
      · simp only [h, List.length_cons]
        omega
  · next hcond =>
    rcases h : s.t2 with _ | ⟨old, rest⟩
    · have hr : s.replaceT2 = s := by
        simp [replaceT2, h]
      rw [hr]
      refine ⟨?_, ?_, hb1, hb2⟩ <;> simp [h]
    · have hr : s.replaceT2 =
          { s with t2 := rest, b2 := capAdd old s.b2 s.c } := by
        simp [replaceT2, h]
      rw [hr]
      refine ⟨?_, le_refl _, hb1, capAdd_le hb2⟩
      simp only [h, List.length_cons]
      omega

theorem ARCCache.replace_pop_or (s : ARCCache) (b : Bool) :
    ((s.replace b).t1.length + (s.replace b).t2.length + 1
        ≤ s.t1.length + s.t2.length) ∨
    (s.replace b = s ∧ s.t2 = [] ∧ s.t1.length ≤ s.p ∧
      (b = true → s.t1 = [] ∨ s.t1.length < s.p)) := by
  unfold replace
  split
  · next hcond =>
    rcases h : s.t1 with _ | ⟨old, rest⟩
    · rw [h] at hcond
      exact absurd rfl hcond.1
    · left
      simp only [h, List.length_cons]
      omega
  · next hcond =>
    rcases h : s.t2 with _ | ⟨old, rest⟩
    · right
      have hr : s.replaceT2 = s := by
        simp [replaceT2, h]
      refine ⟨hr, by simp [h], ?_, ?_⟩
      · by_cases hnil : s.t1 = []
        · rw [hnil]
          simp
        · by_contra hgt
          exact hcond ⟨hnil, Or.inr (by omega)⟩
      · intro hb
        subst hb
        by_cases hnil : s.t1 = []
        · exact Or.inl hnil
        · right
          have hle : s.t1.length ≤ s.p := by
            by_contra hgt
            exact hcond ⟨hnil, Or.inr (by omega)⟩
          have hne2 : s.t1.length ≠ s.p := by
            intro heq
            exact hcond ⟨hnil, Or.inl ⟨rfl, heq⟩⟩
          omega
    · left
      have hr : s.replaceT2 =
          { s with t2 := rest, b2 := capAdd old s.b2 s.c } := by
        simp [replaceT2, h]
      rw [hr]
      simp only [h, List.length_cons]
      omega

theorem ARCCache.missDirectory_fields (s : ARCCache) :
    s.missDirectory.c = s.c ∧ s.missDirectory.capacity = s.capacity ∧
    s.missDirectory.p = s.p ∧ s.missDirectory.hits = s.hits ∧
    s.missDirectory.misses = s.misses ∧ s.missDirectory.time = s.time := by
  unfold missDirectory
  split
  · split
    · exact replace_fields _ false
    · exact ⟨rfl, rfl, rfl, rfl, rfl, rfl⟩
  · split
    · have hf := replace_fields
        (if 2 * s.c ≤ s.t1.length + s.b1.length + (s.t2.length + s.b2.length)
         then
           if s.b2 ≠ [] then { s with b2 := s.b2.tail } else s
         else s) false
      rcases hf with ⟨h1, h2, h3, h4, h5, h6⟩
      constructor
      · rw [h1]
        split
        · split <;> rfl
        · rfl
      constructor
      · rw [h2]
        split
        · split <;> rfl
        · rfl
      constructor
      · rw [h3]
        split
        · split <;> rfl
        · rfl
      constructor
      · rw [h4]
        split
        · split <;> rfl
        · rfl
      constructor
      · rw [h5]
        split
        · split <;> rfl
        · rfl
      · rw [h6]
        split
        · split <;> rfl
        · rfl
    · exact ⟨rfl, rfl, rfl, rfl, rfl, rfl⟩

theorem ARCCache.makeRoom_fields (s : ARCCache) :
    s.makeRoom.c = s.c ∧ s.makeRoom.capacity = s.capacity ∧
    s.makeRoom.p = s.p ∧ s.makeRoom.hits = s.hits ∧
    s.makeRoom.misses = s.misses ∧ s.makeRoom.time = s.time := by
  unfold makeRoom
  split
  · rcases h1 : s.t1 with _ | ⟨o1, r1⟩
    · rcases h2 : s.t2 with _ | ⟨o2, r2⟩ <;> simp
    · simp
  · exact ⟨rfl, rfl, rfl, rfl, rfl, rfl⟩

theorem ARCCache.missDirectory_eq1a (s : ARCCache)
    (h1 : s.t1.length + s.b1.length = s.c) (h2 : s.t1.length < s.c) :
    s.missDirectory = ({ s with b1 := s.b1.tail } : ARCCache).replace false := by
  simp [missDirectory, h1, h2]

theorem ARCCache.missDirectory_eq1b (s : ARCCache)
    (h1 : s.t1.length + s.b1.length = s.c) (h2 : ¬ s.t1.length < s.c) :
    s.missDirectory = { s with t1 := s.t1.tail } := by
  simp [missDirectory, h1, h2]

theorem ARCCache.missDirectory_eq2a (s : ARCCache)
    (h1 : ¬ s.t1.length + s.b1.length = s.c)
    (h2 : s.t1.length + s.b1.length < s.c ∧
      s.c ≤ s.t1.length + s.b1.length + (s.t2.length + s.b2.length))
    (h3 : 2 * s.c ≤ s.t1.length + s.b1.length + (s.t2.length + s.b2.length))
    (h4 : s.b2 ≠ []) :
    s.missDirectory = ({ s with b2 := s.b2.tail } : ARCCache).replace false := by
  simp [missDirectory, h1, h2, h3, h4]

theorem ARCCache.missDirectory_eq2b (s : ARCCache)
    (h1 : ¬ s.t1.length + s.b1.length = s.c)
    (h2 : s.t1.length + s.b1.length < s.c ∧
      s.c ≤ s.t1.length + s.b1.length + (s.t2.length + s.b2.length))
    (hcase :
      ¬ 2 * s.c ≤ s.t1.length + s.b1.length + (s.t2.length + s.b2.length) ∨
      s.b2 = []) :
    s.missDirectory = s.replace false := by
  unfold missDirectory
  rw [if_neg h1, if_pos h2]
  rcases hcase with h3 | h4
  · rw [if_neg h3]
  · by_cases h3 : 2 * s.c ≤ s.t1.length + s.b1.length +
        (s.t2.length + s.b2.length)
    · rw [if_pos h3, if_neg (by simp [h4])]
    · rw [if_neg h3]

theorem ARCCache.missDirectory_eq3 (s : ARCCache)
    (h1 : ¬ s.t1.length + s.b1.length = s.c)
    (h2 : ¬ (s.t1.length + s.b1.length < s.c ∧
      s.c ≤ s.t1.length + s.b1.length + (s.t2.length + s.b2.length))) :
    s.missDirectory = s := by
  simp [missDirectory, h1, h2]

theorem ARCCache.missDirectory_sizes (s : ARCCache) (hc : 1 ≤ s.c)
    (htot : s.t1.length + s.t2.length ≤ s.c)
    (hL1 : s.t1.length + s.b1.length ≤ s.c)
    (hb1 : s.b1.length ≤ s.c) (hb2 : s.b2.length ≤ s.c) :
    s.missDirectory.t1.length + s.missDirectory.t2.length ≤ s.c ∧
    s.missDirectory.t1.length + s.missDirectory.b1.length + 1 ≤ s.c ∧
    s.missDirectory.b1.length ≤ s.c ∧ s.missDirectory.b2.length ≤ s.c := by
  by_cases h1 : s.t1.length + s.b1.length = s.c
  · by_cases h2 : s.t1.length < s.c
    · rw [missDirectory_eq1a s h1 h2]
      have hs0b1 : ({ s with b1 := s.b1.tail } : ARCCache).b1.length ≤
          ({ s with b1 := s.b1.tail } : ARCCache).c := by
        show s.b1.tail.length ≤ s.c
        simp only [List.length_tail]
        omega
      have hs0b2 : ({ s with b1 := s.b1.tail } : ARCCache).b2.length ≤
          ({ s with b1 := s.b1.tail } : ARCCache).c := hb2
      have hrs := replace_sizes ({ s with b1 := s.b1.tail } : ARCCache) false
        hs0b1 hs0b2
      have ha : (({ s with b1 := s.b1.tail } : ARCCache).replace false).t1.length
          + (({ s with b1 := s.b1.tail } : ARCCache).replace false).t2.length
          ≤ s.t1.length + s.t2.length := hrs.1
      have hb : (({ s with b1 := s.b1.tail } : ARCCache).replace false).t1.length
          + (({ s with b1 := s.b1.tail } : ARCCache).replace false).b1.length
          ≤ s.t1.length + s.b1.tail.length := hrs.2.1
      have hcb1 : (({ s with b1 := s.b1.tail } : ARCCache).replace false).b1.length
          ≤ s.c := hrs.2.2.1
      have hcb2 : (({ s with b1 := s.b1.tail } : ARCCache).replace false).b2.length
          ≤ s.c := hrs.2.2.2
      simp only [List.length_tail] at hb
      exact ⟨by omega, by omega, hcb1, hcb2⟩
    · rw [missDirectory_eq1b s h1 h2]
      refine ⟨?_, ?_, ?_, ?_⟩
      · show s.t1.tail.length + s.t2.length ≤ s.c
        simp only [List.length_tail]
        omega
      · show s.t1.tail.length + s.b1.length + 1 ≤ s.c
        simp only [List.length_tail]
        omega
      · exact hb1
      · exact hb2
  · by_cases h2 : s.t1.length + s.b1.length < s.c ∧
        s.c ≤ s.t1.length + s.b1.length + (s.t2.length + s.b2.length)
    · by_cases h3 : 2 * s.c ≤ s.t1.length + s.b1.length +
          (s.t2.length + s.b2.length)
      · by_cases h4 : s.b2 = []
        · rw [missDirectory_eq2b s h1 h2 (Or.inr h4)]
          have hrs := replace_sizes s false hb1 hb2
          exact ⟨by omega, by
            have := hrs.2.1
            omega, hrs.2.2.1, hrs.2.2.2⟩
        · rw [missDirectory_eq2a s h1 h2 h3 h4]
          have hs0b2 : ({ s with b2 := s.b2.tail } : ARCCache).b2.length ≤
              ({ s with b2 := s.b2.tail } : ARCCache).c := by
            show s.b2.tail.length ≤ s.c
            simp only [List.length_tail]
            omega
          have hrs := replace_sizes ({ s with b2 := s.b2.tail } : ARCCache)
            false hb1 hs0b2
          have ha : (({ s with b2 := s.b2.tail } : ARCCache).replace
                false).t1.length
              + (({ s with b2 := s.b2.tail } : ARCCache).replace
                false).t2.length
              ≤ s.t1.length + s.t2.length := hrs.1
          have hb : (({ s with b2 := s.b2.tail } : ARCCache).replace
                false).t1.length
              + (({ s with b2 := s.b2.tail } : ARCCache).replace
                false).b1.length
              ≤ s.t1.length + s.b1.length := hrs.2.1
          have hcb1 : (({ s with b2 := s.b2.tail } : ARCCache).replace
              false).b1.length ≤ s.c := hrs.2.2.1
          have hcb2 : (({ s with b2 := s.b2.tail } : ARCCache).replace
              false).b2.length ≤ s.c := hrs.2.2.2
          exact ⟨by omega, by omega, hcb1, hcb2⟩
      · rw [missDirectory_eq2b s h1 h2 (Or.inl h3)]
        have hrs := replace_sizes s false hb1 hb2
        exact ⟨by omega, by
          have := hrs.2.1
          omega, hrs.2.2.1, hrs.2.2.2⟩
    · rw [missDirectory_eq3 s h1 h2]
      exact ⟨htot, by omega, hb1, hb2⟩

theorem ARCCache.makeRoom_eq_t1 (s : ARCCache) (o : Nat) (r : List Nat)
    (h : s.c ≤ s.t1.length + s.t2.length) (h1 : s.t1 = o :: r) :
    s.makeRoom = { s with t1 := r, b1 := capAdd o s.b1 s.c } := by
  have h' := h
  rw [h1] at h'
  simp only [List.length_cons] at h'
  simp [makeRoom, h1]
  intro hlt
  exact absurd hlt (by omega)

theorem ARCCache.makeRoom_eq_t2 (s : ARCCache) (o : Nat) (r : List Nat)
    (h : s.c ≤ s.t1.length + s.t2.length) (h1 : s.t1 = [])
    (h2 : s.t2 = o :: r) :
    s.makeRoom = { s with t2 := r, b2 := capAdd o s.b2 s.c } := by
  have h' := h
  rw [h1, h2] at h'
  simp only [List.length_cons, List.length_nil] at h'
  simp [makeRoom, h1, h2]
  intro hlt
  exact absurd hlt (by omega)

theorem ARCCache.makeRoom_eq_none (s : ARCCache)
    (h : ¬ s.c ≤ s.t1.length + s.t2.length) : s.makeRoom = s := by
  simp [makeRoom, h]

theorem ARCCache.makeRoom_sizes (s : ARCCache) (hc : 1 ≤ s.c)
    (htot : s.t1.length + s.t2.length ≤ s.c)
    (hL1 : s.t1.length + s.b1.length + 1 ≤ s.c)
    (hb1 : s.b1.length ≤ s.c) (hb2 : s.b2.length ≤ s.c) :
    s.makeRoom.t1.length + s.makeRoom.t2.length + 1 ≤ s.c ∧
    s.makeRoom.t1.length + s.makeRoom.b1.length + 1 ≤ s.c ∧
    s.makeRoom.b1.length ≤ s.c ∧ s.makeRoom.b2.length ≤ s.c := by
  by_cases h : s.c ≤ s.t1.length + s.t2.length
  · rcases h1 : s.t1 with _ | ⟨o1, r1⟩
    · rcases h2 : s.t2 with _ | ⟨o2, r2⟩
      · exfalso
        rw [h1, h2] at h
        simp only [List.length_nil] at h
        omega
      · rw [makeRoom_eq_t2 s o2 r2 h h1 h2]
        have hlt1 : s.t1.length = 0 := by
          rw [h1]
          rfl
        have hlt2 : s.t2.length = r2.length + 1 := by
          rw [h2]
          rfl
        have hcap := length_capAdd_le_succ o2 s.b2 s.c
        refine ⟨?_, ?_, ?_, ?_⟩
        · show s.t1.length + r2.length + 1 ≤ s.c
          omega
        · show s.t1.length + s.b1.length + 1 ≤ s.c
          exact hL1
        · exact hb1
        · exact capAdd_le hb2
    · rw [makeRoom_eq_t1 s o1 r1 h h1]
      have hlt1 : s.t1.length = r1.length + 1 := by
        rw [h1]
        rfl
      have hcap := length_capAdd_le_succ o1 s.b1 s.c
      refine ⟨?_, ?_, ?_, ?_⟩
      · show r1.length + s.t2.length + 1 ≤ s.c
        omega
      · show r1.length + (capAdd o1 s.b1 s.c).length + 1 ≤ s.c
        omega
      · exact capAdd_le hb1
      · exact hb2
  · rw [makeRoom_eq_none s h]
    exact ⟨by omega, hL1, hb1, hb2⟩

theorem ARCCache.access_eq_hit1 (s : ARCCache) (i : Nat) (h1 : i ∈ s.t1) :
    s.access i =
      (true,
        { s with
            time := s.time + 1
            hits := s.hits + 1
            t1 := s.t1.erase i
            t2 := odInsert i s.t2 }) := by
  simp [access, h1]

theorem ARCCache.access_eq_hit2 (s : ARCCache) (i : Nat) (h1 : i ∉ s.t1)
    (h2 : i ∈ s.t2) :
    s.access i =
      (true,
        { s with
            time := s.time + 1
            hits := s.hits + 1
            t2 := moveToEnd i s.t2 }) := by
  simp [access, h1, h2]

theorem ARCCache.access_eq_ghost1 (s : ARCCache) (i : Nat) (h1 : i ∉ s.t1)
    (h2 : i ∉ s.t2) (h3 : i ∈ s.b1) :
    s.access i =
      (false,
        { s.ghost1Mid with
            b1 := s.ghost1Mid.b1.erase i
            t2 := odInsert i s.ghost1Mid.t2 }) := by
  simp [access, ghost1Mid, h1, h2, h3]

theorem ARCCache.access_eq_ghost2 (s : ARCCache) (i : Nat) (h1 : i ∉ s.t1)
    (h2 : i ∉ s.t2) (h3 : i ∉ s.b1) (h4 : i ∈ s.b2) :
    s.access i =
      (false,
        { s.ghost2Mid with
            b2 := s.ghost2Mid.b2.erase i
            t2 := odInsert i s.ghost2Mid.t2 }) := by
  simp [access, ghost2Mid, h1, h2, h3, h4]

theorem ARCCache.access_eq_missfull (s : ARCCache) (i : Nat) (h1 : i ∉ s.t1)
    (h2 : i ∉ s.t2) (h3 : i ∉ s.b1) (h4 : i ∉ s.b2) :
    s.access i =
      (false,
        { s.missMid with
            t1 := odInsert i s.missMid.t1 }) := by
  simp [access, missMid, h1, h2, h3, h4]

theorem ARCCache.Inv_init (c : Nat) (hc : 1 ≤ c) : (ARCCache.init c).Inv := by
  refine ⟨rfl, hc, ?_, ?_, ?_, ?_, ?_⟩ <;> simp [init]

theorem ARCCache.access_Inv (s : ARCCache) (i : Nat) (h : s.Inv) :
    (s.access i).2.Inv := by
  obtain ⟨hcap, hc, hp, htot, hL1, hb1, hb2⟩ := h
  by_cases h1 : i ∈ s.t1
  · rw [access_eq_hit1 s i h1]
    have he : (s.t1.erase i).length = s.t1.length - 1 :=
      List.length_erase_of_mem h1
    have ho := length_odInsert_le i s.t2
    have hpos : 1 ≤ s.t1.length :=
      List.length_pos.mpr (List.ne_nil_of_mem h1)
    refine ⟨hcap, hc, hp, ?_, ?_, hb1, hb2⟩
    · show (s.t1.erase i).length + (odInsert i s.t2).length ≤ s.c
      omega
    · show (s.t1.erase i).length + s.b1.length ≤ s.c
      omega
  · by_cases h2 : i ∈ s.t2
    · rw [access_eq_hit2 s i h1 h2]
      have hm : (moveToEnd i s.t2).length = s.t2.length :=
        length_moveToEnd h2
      refine ⟨hcap, hc, hp, ?_, hL1, hb1, hb2⟩
      show s.t1.length + (moveToEnd i s.t2).length ≤ s.c
      omega
    · by_cases h3 : i ∈ s.b1
      · rw [access_eq_ghost1 s i h1 h2 h3]
        have hb1pos : 1 ≤ s.b1.length :=
          List.length_pos.mpr (List.ne_nil_of_mem h3)
        have hmid : ∀ q : ARCCache,
            q = ({ s with
              time := s.time + 1
              misses := s.misses + 1
              p := min s.c
                (s.p + max 1 (s.b2.length / max 1 s.b1.length)) } :
              ARCCache) →
            q.b1.length ≤ q.c ∧ q.b2.length ≤ q.c := by
          intro q hq
          subst hq
          exact ⟨hb1, hb2⟩
        have hmids := hmid _ rfl
        have hrs := replace_sizes
          ({ s with
              time := s.time + 1
              misses := s.misses + 1
              p := min s.c
                (s.p + max 1 (s.b2.length / max 1 s.b1.length)) } :
            ARCCache) false hmids.1 hmids.2
        have hrf := replace_fields
          ({ s with
              time := s.time + 1
              misses := s.misses + 1
              p := min s.c
                (s.p + max 1 (s.b2.length / max 1 s.b1.length)) } :
            ARCCache) false
        have hpop := replace_pop_or
          ({ s with
              time := s.time + 1
              misses := s.misses + 1
              p := min s.c
                (s.p + max 1 (s.b2.length / max 1 s.b1.length)) } :
            ARCCache) false
        have hg1 : s.ghost1Mid.t1.length + s.ghost1Mid.t2.length ≤
            s.t1.length + s.t2.length := hrs.1
        have hg2 : s.ghost1Mid.t1.length + s.ghost1Mid.b1.length ≤
            s.t1.length + s.b1.length := hrs.2.1
        have hg3 : s.ghost1Mid.b1.length ≤ s.c := hrs.2.2.1
        have hg4 : s.ghost1Mid.b2.length ≤ s.c := hrs.2.2.2
        have hgc : s.ghost1Mid.c = s.c := hrf.1
        have hgcap : s.ghost1Mid.capacity = s.capacity := hrf.2.1
        have hgp : s.ghost1Mid.p =
            min s.c (s.p + max 1 (s.b2.length / max 1 s.b1.length)) :=
          hrf.2.2.1
        have herase : (s.ghost1Mid.b1.erase i).length ≤
            s.ghost1Mid.b1.length := length_erase_le i s.ghost1Mid.b1
        have hoi := length_odInsert_le i s.ghost1Mid.t2
        refine ⟨by rw [hgc, hgcap, hcap], by rw [hgc]; exact hc, ?_, ?_, ?_,
          ?_, ?_⟩
        · show s.ghost1Mid.p ≤ s.ghost1Mid.c
          rw [hgp, hgc]
          omega
        · show s.ghost1Mid.t1.length + (odInsert i s.ghost1Mid.t2).length ≤
            s.ghost1Mid.c
          rw [hgc]
          rcases hpop with hpop | ⟨heq, ht2nil, ht1le, _⟩
          · have : s.ghost1Mid.t1.length + s.ghost1Mid.t2.length + 1 ≤
                s.t1.length + s.t2.length := hpop
            omega
          · have hgt1 : s.ghost1Mid.t1 = s.t1 := by
              rw [show s.ghost1Mid = _ from heq]
            have hgt2 : s.ghost1Mid.t2 = s.t2 := by
              rw [show s.ghost1Mid = _ from heq]
            have ht2n : s.t2 = [] := ht2nil
            rw [hgt1, hgt2, ht2n]
            have hoi2 := length_odInsert_le i ([] : List Nat)
            simp only [List.length_nil] at hoi2
            omega
        · show s.ghost1Mid.t1.length + (s.ghost1Mid.b1.erase i).length ≤
            s.ghost1Mid.c
          rw [hgc]
          omega
        · show (s.ghost1Mid.b1.erase i).length ≤ s.ghost1Mid.c
          rw [hgc]
          omega
        · show s.ghost1Mid.b2.length ≤ s.ghost1Mid.c
          rw [hgc]
          exact hg4
      · by_cases h4 : i ∈ s.b2
        · rw [access_eq_ghost2 s i h1 h2 h3 h4]
          have hmid : ∀ q : ARCCache,
              q = ({ s with
                time := s.time + 1
                misses := s.misses + 1
                p := s.p - max 1 (s.b1.length / max 1 s.b2.length) } :
                ARCCache) →
              q.b1.length ≤ q.c ∧ q.b2.length ≤ q.c := by
            intro q hq
            subst hq
            exact ⟨hb1, hb2⟩
          have hmids := hmid _ rfl
          have hrs := replace_sizes
            ({ s with
                time := s.time + 1
                misses := s.misses + 1
                p := s.p - max 1 (s.b1.length / max 1 s.b2.length) } :
              ARCCache) true hmids.1 hmids.2
          have hrf := replace_fields
            ({ s with
                time := s.time + 1
                misses := s.misses + 1
                p := s.p - max 1 (s.b1.length / max 1 s.b2.length) } :
              ARCCache) true
          have hpop := replace_pop_or
            ({ s with
                time := s.time + 1
                misses := s.misses + 1
                p := s.p - max 1 (s.b1.length / max 1 s.b2.length) } :
              ARCCache) true
          have hg1 : s.ghost2Mid.t1.length + s.ghost2Mid.t2.length ≤
              s.t1.length + s.t2.length := hrs.1
          have hg2 : s.ghost2Mid.t1.length + s.ghost2Mid.b1.length ≤
              s.t1.length + s.b1.length := hrs.2.1
          have hg3 : s.ghost2Mid.b1.length ≤ s.c := hrs.2.2.1
          have hg4 : s.ghost2Mid.b2.length ≤ s.c := hrs.2.2.2
          have hgc : s.ghost2Mid.c = s.c := hrf.1
          have hgcap : s.ghost2Mid.capacity = s.capacity := hrf.2.1
          have hgp : s.ghost2Mid.p =
              s.p - max 1 (s.b1.length / max 1 s.b2.length) := hrf.2.2.1
          have herase : (s.ghost2Mid.b2.erase i).length ≤
              s.ghost2Mid.b2.length := length_erase_le i s.ghost2Mid.b2
          have hoi := length_odInsert_le i s.ghost2Mid.t2
          refine ⟨by rw [hgc, hgcap, hcap], by rw [hgc]; exact hc, ?_, ?_,
            ?_, ?_, ?_⟩
          · show s.ghost2Mid.p ≤ s.ghost2Mid.c
            rw [hgp, hgc]
            omega
          · show s.ghost2Mid.t1.length + (odInsert i s.ghost2Mid.t2).length ≤
              s.ghost2Mid.c
            rw [hgc]
            rcases hpop with hpop | ⟨heq, ht2nil, ht1le, hlt⟩
            · have : s.ghost2Mid.t1.length + s.ghost2Mid.t2.length + 1 ≤
                  s.t1.length + s.t2.length := hpop
              omega
            · have hgt1 : s.ghost2Mid.t1 = s.t1 := by
                rw [show s.ghost2Mid = _ from heq]
              have hgt2 : s.ghost2Mid.t2 = s.t2 := by
                rw [show s.ghost2Mid = _ from heq]
              have ht2n : s.t2 = [] := ht2nil
              rcases hlt rfl with ht1nil | ht1lt
              · have ht1n : s.t1 = [] := ht1nil
                rw [hgt1, hgt2, ht2n, ht1n]
                simp only [List.length_nil]
                have hoi2 := length_odInsert_le i ([] : List Nat)
                simp only [List.length_nil] at hoi2
                omega
              · have hplt : s.t1.length <
                    s.p - max 1 (s.b1.length / max 1 s.b2.length) := ht1lt
                rw [hgt1, hgt2, ht2n]
                have hoi2 := length_odInsert_le i ([] : List Nat)
                simp only [List.length_nil] at hoi2
                omega
          · show s.ghost2Mid.t1.length + s.ghost2Mid.b1.length ≤
              s.ghost2Mid.c
            rw [hgc]
            omega
          · show s.ghost2Mid.b1.length ≤ s.ghost2Mid.c
            rw [hgc]
            exact hg3
          · show (s.ghost2Mid.b2.erase i).length ≤ s.ghost2Mid.c
            rw [hgc]
            omega
        · rw [access_eq_missfull s i h1 h2 h3 h4]
          have hmd := missDirectory_sizes s.bumpMiss hc htot hL1 hb1 hb2
          have hmdf := missDirectory_fields s.bumpMiss
          have hmdc : s.bumpMiss.missDirectory.c = s.c := hmdf.1
          have hmdL1 : s.bumpMiss.missDirectory.t1.length +
              s.bumpMiss.missDirectory.b1.length + 1 ≤ s.c := hmd.2.1
          have hmr := makeRoom_sizes s.bumpMiss.missDirectory
            (by rw [hmdc]; exact hc)
            (by rw [hmdc]; exact hmd.1)
            (by rw [hmdc]; exact hmdL1)
            (by rw [hmdc]; exact hmd.2.2.1)
            (by rw [hmdc]; exact hmd.2.2.2)
          have hmrf := makeRoom_fields s.bumpMiss.missDirectory
          have hmmc : s.missMid.c = s.c := by
            have : s.missMid.c = s.bumpMiss.missDirectory.makeRoom.c := rfl
            rw [this, hmrf.1, hmdc]
          have hmmcap : s.missMid.capacity = s.capacity := by
            have : s.missMid.capacity =
                s.bumpMiss.missDirectory.makeRoom.capacity := rfl
            rw [this, hmrf.2.1]
            exact hmdf.2.1
          have hmmp : s.missMid.p = s.p := by
            have : s.missMid.p = s.bumpMiss.missDirectory.makeRoom.p := rfl
            rw [this, hmrf.2.2.1]
            exact hmdf.2.2.1
          have hm1 : s.missMid.t1.length + s.missMid.t2.length + 1 ≤ s.c := by
            have h0 : s.bumpMiss.missDirectory.makeRoom.t1.length +
                s.bumpMiss.missDirectory.makeRoom.t2.length + 1 ≤
                s.bumpMiss.missDirectory.c := hmr.1
            rw [hmdc] at h0
            exact h0
          have hm2 : s.missMid.t1.length + s.missMid.b1.length + 1 ≤ s.c := by
            have h0 : s.bumpMiss.missDirectory.makeRoom.t1.length +
                s.bumpMiss.missDirectory.makeRoom.b1.length + 1 ≤
                s.bumpMiss.missDirectory.c := hmr.2.1
            rw [hmdc] at h0
            exact h0
          have hm3 : s.missMid.b1.length ≤ s.c := by
            have h0 : s.bumpMiss.missDirectory.makeRoom.b1.length ≤
                s.bumpMiss.missDirectory.c := hmr.2.2.1
            rw [hmdc] at h0
            exact h0
          have hm4 : s.missMid.b2.length ≤ s.c := by
            have h0 : s.bumpMiss.missDirectory.makeRoom.b2.length ≤
                s.bumpMiss.missDirectory.c := hmr.2.2.2
            rw [hmdc] at h0
            exact h0
          have hoi := length_odInsert_le i s.missMid.t1
          refine ⟨by rw [hmmc, hmmcap, hcap], by rw [hmmc]; exact hc, ?_,
            ?_, ?_, ?_, ?_⟩
          · show s.missMid.p ≤ s.missMid.c
            rw [hmmp, hmmc]
            exact hp
          · show (odInsert i s.missMid.t1).length + s.missMid.t2.length ≤
              s.missMid.c
            rw [hmmc]
            omega
          · show (odInsert i s.missMid.t1).length + s.missMid.b1.length ≤
              s.missMid.c
            rw [hmmc]
            omega
          · show s.missMid.b1.length ≤ s.missMid.c
            rw [hmmc]
            exact hm3
          · show s.missMid.b2.length ≤ s.missMid.c
            rw [hmmc]
            exact hm4

theorem ARCCache.ghost1Mid_fields (s : ARCCache) :
    s.ghost1Mid.c = s.c ∧ s.ghost1Mid.capacity = s.capacity ∧
    s.ghost1Mid.p =
      min s.c (s.p + max 1 (s.b2.length / max 1 s.b1.length)) ∧
    s.ghost1Mid.hits = s.hits ∧ s.ghost1Mid.misses = s.misses + 1 ∧
    s.ghost1Mid.time = s.time + 1 := by
  unfold ghost1Mid
  have hrf := replace_fields
    ({ s with
        time := s.time + 1
        misses := s.misses + 1
        p := min s.c (s.p + max 1 (s.b2.length / max 1 s.b1.length)) } :
      ARCCache) false
  exact ⟨hrf.1, hrf.2.1, hrf.2.2.1, hrf.2.2.2.1, hrf.2.2.2.2.1,
    hrf.2.2.2.2.2⟩

theorem ARCCache.ghost2Mid_fields (s : ARCCache) :
    s.ghost2Mid.c = s.c ∧ s.ghost2Mid.capacity = s.capacity ∧
    s.ghost2Mid.p = s.p - max 1 (s.b1.length / max 1 s.b2.length) ∧
    s.ghost2Mid.hits = s.hits ∧ s.ghost2Mid.misses = s.misses + 1 ∧
    s.ghost2Mid.time = s.time + 1 := by
  unfold ghost2Mid
  have hrf := replace_fields
    ({ s with
        time := s.time + 1
        misses := s.misses + 1
        p := s.p - max 1 (s.b1.length / max 1 s.b2.length) } :
      ARCCache) true
  exact ⟨hrf.1, hrf.2.1, hrf.2.2.1, hrf.2.2.2.1, hrf.2.2.2.2.1,
    hrf.2.2.2.2.2⟩

theorem ARCCache.missMid_fields (s : ARCCache) :
    s.missMid.c = s.c ∧ s.missMid.capacity = s.capacity ∧
    s.missMid.p = s.p ∧ s.missMid.hits = s.hits ∧
    s.missMid.misses = s.misses + 1 ∧ s.missMid.time = s.time + 1 := by
  have hmrf := makeRoom_fields s.bumpMiss.missDirectory
  have hmdf := missDirectory_fields s.bumpMiss
  have e : s.missMid = s.bumpMiss.missDirectory.makeRoom := rfl
  rw [e]
  refine ⟨?_, ?_, ?_, ?_, ?_, ?_⟩
  · rw [hmrf.1]
    exact hmdf.1
  · rw [hmrf.2.1]
    exact hmdf.2.1
  · rw [hmrf.2.2.1]
    exact hmdf.2.2.1
  · rw [hmrf.2.2.2.1]
    exact hmdf.2.2.2.1
  · rw [hmrf.2.2.2.2.1]
    exact hmdf.2.2.2.2.1
  · rw [hmrf.2.2.2.2.2]
    exact hmdf.2.2.2.2.2

theorem ARCCache.arc_access_fields (s : ARCCache) (i : Nat) :
    (s.access i).2.capacity = s.capacity ∧ (s.access i).2.c = s.c ∧
    (s.access i).2.time = s.time + 1 ∧
    (s.access i).2.hits + (s.access i).2.misses
      = s.hits + s.misses + 1 := by
  by_cases h1 : i ∈ s.t1
  · rw [access_eq_hit1 s i h1]
    refine ⟨rfl, rfl, rfl, ?_⟩
    show s.hits + 1 + s.misses = s.hits + s.misses + 1
    omega
  · by_cases h2 : i ∈ s.t2
    · rw [access_eq_hit2 s i h1 h2]
      refine ⟨rfl, rfl, rfl, ?_⟩
      show s.hits + 1 + s.misses = s.hits + s.misses + 1
      omega
    · by_cases h3 : i ∈ s.b1
      · rw [access_eq_ghost1 s i h1 h2 h3]
        have hf := ghost1Mid_fields s
        refine ⟨hf.2.1, hf.1, hf.2.2.2.2.2, ?_⟩
        show s.ghost1Mid.hits + s.ghost1Mid.misses = s.hits + s.misses + 1
        rw [hf.2.2.2.1, hf.2.2.2.2.1]
        omega
      · by_cases h4 : i ∈ s.b2
        · rw [access_eq_ghost2 s i h1 h2 h3 h4]
          have hf := ghost2Mid_fields s
          refine ⟨hf.2.1, hf.1, hf.2.2.2.2.2, ?_⟩
          show s.ghost2Mid.hits + s.ghost2Mid.misses = s.hits + s.misses + 1
          rw [hf.2.2.2.1, hf.2.2.2.2.1]
          omega
        · rw [access_eq_missfull s i h1 h2 h3 h4]
          have hf := missMid_fields s
          refine ⟨hf.2.1, hf.1, hf.2.2.2.2.2, ?_⟩
          show s.missMid.hits + s.missMid.misses = s.hits + s.misses + 1
          rw [hf.2.2.2.1, hf.2.2.2.2.1]
          omega

theorem ARCCache.arc_access_spec (s : ARCCache) (i : Nat) :
    ((s.access i).1 = true ↔ s.resident i) ∧
    ((s.access i).1 = true →
      (s.access i).2.hits = s.hits + 1 ∧ (s.access i).2.misses = s.misses ∧
      ∀ x, (s.access i).2.resident x ↔ s.resident x) ∧
    ((s.access i).1 = false →
      (s.access i).2.misses = s.misses + 1 ∧ (s.access i).2.hits = s.hits ∧
      (s.access i).2.resident i) := by
  by_cases h1 : i ∈ s.t1
  · rw [access_eq_hit1 s i h1]
    refine ⟨by simp [resident, h1], fun _ => ⟨rfl, rfl, fun x => ?_⟩,
      by simp⟩
    show (x ∈ s.t1.erase i ∨ x ∈ odInsert i s.t2) ↔ (x ∈ s.t1 ∨ x ∈ s.t2)
    constructor
    · rintro (hx | hx)
      · exact Or.inl (List.mem_of_mem_erase hx)
      · rcases mem_odInsert.mp hx with rfl | hx2
        · exact Or.inl h1
        · exact Or.inr hx2
    · rintro (hx | hx)
      · by_cases hxi : x = i
        · subst hxi
          exact Or.inr (mem_odInsert.mpr (Or.inl rfl))
        · exact Or.inl ((List.mem_erase_of_ne hxi).mpr hx)
      · exact Or.inr (mem_odInsert.mpr (Or.inr hx))
  · by_cases h2 : i ∈ s.t2
    · rw [access_eq_hit2 s i h1 h2]
      refine ⟨by simp [resident, h2], fun _ => ⟨rfl, rfl, fun x => ?_⟩,
        by simp⟩
      show (x ∈ s.t1 ∨ x ∈ moveToEnd i s.t2) ↔ (x ∈ s.t1 ∨ x ∈ s.t2)
      rw [mem_moveToEnd h2]
    · by_cases h3 : i ∈ s.b1
      · rw [access_eq_ghost1 s i h1 h2 h3]
        have hf := ghost1Mid_fields s
        refine ⟨by simp [resident, h1, h2], by simp, fun _ => ⟨?_, ?_, ?_⟩⟩
        · show s.ghost1Mid.misses = s.misses + 1
          exact hf.2.2.2.2.1
        · show s.ghost1Mid.hits = s.hits
          exact hf.2.2.2.1
        · show i ∈ s.ghost1Mid.t1 ∨ i ∈ odInsert i s.ghost1Mid.t2
          exact Or.inr (mem_odInsert.mpr (Or.inl rfl))
      · by_cases h4 : i ∈ s.b2
        · rw [access_eq_ghost2 s i h1 h2 h3 h4]
          have hf := ghost2Mid_fields s
          refine ⟨by simp [resident, h1, h2], by simp,
            fun _ => ⟨?_, ?_, ?_⟩⟩
          · show s.ghost2Mid.misses = s.misses + 1
            exact hf.2.2.2.2.1
          · show s.ghost2Mid.hits = s.hits
            exact hf.2.2.2.1
          · show i ∈ s.ghost2Mid.t1 ∨ i ∈ odInsert i s.ghost2Mid.t2
            exact Or.inr (mem_odInsert.mpr (Or.inl rfl))
        · rw [access_eq_missfull s i h1 h2 h3 h4]
          have hf := missMid_fields s
          refine ⟨by simp [resident, h1, h2], by simp,
            fun _ => ⟨?_, ?_, ?_⟩⟩
          · show s.missMid.misses = s.misses + 1
            exact hf.2.2.2.2.1
          · show s.missMid.hits = s.hits
            exact hf.2.2.2.1
          · show i ∈ odInsert i s.missMid.t1 ∨ i ∈ s.missMid.t2
            exact Or.inl (mem_odInsert.mpr (Or.inl rfl))

theorem ARCCache.access_p (s : ARCCache) (i : Nat) (hp : s.p ≤ s.c) :
    (s.access i).2.p ≤ s.c ∧ (s.access i).2.c = s.c ∧
    (((s.access i).1 = true ∨ i ∈ s.b1) → s.p ≤ (s.access i).2.p) := by
  by_cases h1 : i ∈ s.t1
  · rw [access_eq_hit1 s i h1]
    exact ⟨hp, rfl, fun _ => le_refl _⟩
  · by_cases h2 : i ∈ s.t2
    · rw [access_eq_hit2 s i h1 h2]
      exact ⟨hp, rfl, fun _ => le_refl _⟩
    · by_cases h3 : i ∈ s.b1
      · rw [access_eq_ghost1 s i h1 h2 h3]
        have hf := ghost1Mid_fields s
        refine ⟨?_, hf.1, fun _ => ?_⟩
        · show s.ghost1Mid.p ≤ s.c
          rw [hf.2.2.1]
          exact min_le_left _ _
        · show s.p ≤ s.ghost1Mid.p
          rw [hf.2.2.1]
          omega
      · by_cases h4 : i ∈ s.b2
        · rw [access_eq_ghost2 s i h1 h2 h3 h4]
          have hf := ghost2Mid_fields s
          refine ⟨?_, hf.1, fun hcon => ?_⟩
          · show s.ghost2Mid.p ≤ s.c
            rw [hf.2.2.1]
            omega
          · rcases hcon with hc1 | hc2
            · cases hc1
            · exact absurd hc2 h3
        · rw [access_eq_missfull s i h1 h2 h3 h4]
          have hf := missMid_fields s
          refine ⟨?_, hf.1, fun hcon => ?_⟩
          · show s.missMid.p ≤ s.c
            rw [hf.2.2.1]
            exact hp
          · rcases hcon with hc1 | hc2
            · cases hc1
            · exact absurd hc2 h3

theorem run_counters {σ : Type} (step : σ → Nat → Bool × σ)
    (time hits misses : σ → Nat)
    (ht : ∀ s i, time (step s i).2 = time s + 1)
    (hhm : ∀ s i,
      hits (step s i).2 + misses (step s i).2 = hits s + misses s + 1)
    (s0 : σ) (h0 : time s0 = 0 ∧ hits s0 = 0 ∧ misses s0 = 0)
    (t : List Nat) :
    hits (runP step s0 t) + misses (runP step s0 t)
      = time (runP step s0 t) ∧
    time (runP step s0 t) = t.length := by
  have h1 := runP_counter step time ht t s0
  have h2 := runP_counter step (fun s => hits s + misses s)
    (fun s i => by
      show hits (step s i).2 + misses (step s i).2 = hits s + misses s + 1
      exact hhm s i) t s0
  have h2' : hits (runP step s0 t) + misses (runP step s0 t)
      = hits s0 + misses s0 + t.length := h2
  constructor <;> omega

theorem LFUCache.access_capacity (s : LFUCache) (i : Nat) :
    (s.access i).2.capacity = s.capacity := by
  rcases hl : alistLookup i s.cache with _ | freq
  · exact (access_miss_fields s i hl).1
  · exact (access_hit_fields s i freq hl).1

theorem LFUCache.access_time (s : LFUCache) (i : Nat) :
    (s.access i).2.time = s.time + 1 := by
  rcases hl : alistLookup i s.cache with _ | freq
  · exact (access_miss_fields s i hl).2.1
  · exact (access_hit_fields s i freq hl).2.1

theorem LFUCache.lfu_access_counters (s : LFUCache) (i : Nat) :
    (s.access i).2.hits + (s.access i).2.misses
      = s.hits + s.misses + 1 := by
  rcases hl : alistLookup i s.cache with _ | freq
  · have h := access_miss_fields s i hl
    omega
  · have h := access_hit_fields s i freq hl
    omega

theorem TimeDecayedCache.tdc_access_counters (s : TimeDecayedCache) (i : Nat) :
    (s.access i).2.hits + (s.access i).2.misses
      = s.hits + s.misses + 1 := by
  rcases hl : alistLookup i s.cache with _ | sc
  · have h := access_miss_counters s i hl
    omega
  · have h := access_hit_counters s i sc hl
    omega

theorem LFUCache.lfu_access_spec (s : LFUCache) (i : Nat) :
    ((s.access i).1 = true ↔ s.resident i) ∧
    ((s.access i).1 = true →
      (s.access i).2.hits = s.hits + 1 ∧ (s.access i).2.misses = s.misses ∧
      ∀ x, (s.access i).2.resident x ↔ s.resident x) ∧
    ((s.access i).1 = false →
      (s.access i).2.misses = s.misses + 1 ∧ (s.access i).2.hits = s.hits ∧
      (s.access i).2.resident i) := by
  rcases hl : alistLookup i s.cache with _ | freq
  · have hik : i ∉ keys s.cache := alistLookup_eq_none.mp hl
    have hout := access_miss_out s i hl
    have hf := access_miss_fields s i hl
    refine ⟨by simp [hout, resident, hik], by simp [hout],
      fun _ => ⟨hf.2.2.2.1, hf.2.2.1, ?_⟩⟩
    unfold resident
    by_cases hlen : s.capacity ≤ s.cache.length
    · rcases hh : (s.freq_to_items s.min_freq).head? with _ | e
      · rw [access_miss_headnone_cache s i hl hlen hh]
        exact mem_keys_alistInsert_self i 1 s.cache
      · rw [access_miss_evict_cache s i e hl hlen hh]
        exact mem_keys_alistInsert_self i 1 _
    · rw [access_miss_noevict_cache s i hl hlen]
      exact mem_keys_alistInsert_self i 1 s.cache
  · have hik : i ∈ keys s.cache := alistLookup_isSome_iff.mp ⟨freq, hl⟩
    have hout := access_hit_out s i freq hl
    have hf := access_hit_fields s i freq hl
    refine ⟨by simp [hout, resident, hik],
      fun _ => ⟨hf.2.2.1, hf.2.2.2, fun x => ?_⟩, by simp [hout]⟩
    unfold resident
    rw [access_hit_cache s i freq hl, keys_alistInsert_of_mem _ hik]

theorem LFUCache.evict_head_spec (s : LFUCache) (i e : Nat)
    (hl : alistLookup i s.cache = none)
    (hlen : s.capacity ≤ s.cache.length)
    (hh : (s.freq_to_items s.min_freq).head? = some e) (hei : i ≠ e) :
    ∀ x, (s.access i).2.resident x ↔ (s.resident x ∧ x ≠ e) ∨ x = i := by
  intro x
  unfold resident
  rw [access_miss_evict_cache s i e hl hlen hh]
  by_cases hx : x = i
  · subst hx
    simp [mem_keys_alistInsert_self]
  · have hik1 : i ∉ keys (alistErase e s.cache) := fun h2 =>
      (alistLookup_eq_none.mp hl) (mem_keys_alistErase.mp h2).1
    rw [keys_alistInsert_of_not_mem _ hik1]
    simp only [List.mem_append, List.mem_singleton, hx, or_false]
    rw [mem_keys_alistErase]

theorem LRUCache.lru_run_size (cap : Nat) (hc : 1 ≤ cap) (t : List Nat) :
    (runP LRUCache.access (LRUCache.init cap) t).cache.length ≤ cap := by
  have h := runP_preserve LRUCache.access
    (fun s => s.capacity = cap ∧ s.cache.length ≤ cap)
    (fun s i hs => by
      refine ⟨by rw [(LRUCache.lru_access_fields s i).1, hs.1], ?_⟩
      have h2 := LRUCache.lru_access_size s i (by rw [hs.1]; exact hc)
        (by rw [hs.1]; exact hs.2)
      rw [hs.1] at h2
      exact h2)
    t (LRUCache.init cap) ⟨rfl, by simp [LRUCache.init]⟩
  exact h.2

theorem LFUCache.lfu_run_size (cap : Nat) (hc : 1 ≤ cap) (t : List Nat) :
    (runP LFUCache.access (LFUCache.init cap) t).cache.length ≤ cap := by
  have h := runP_preserve LFUCache.access
    (fun s => s.capacity = cap ∧ s.WF ∧ s.cache.length ≤ cap)
    (fun s i hs => by
      refine ⟨by rw [LFUCache.access_capacity s i, hs.1],
        LFUCache.access_WF s i hs.2.1, ?_⟩
      have h2 := LFUCache.lfu_access_size s i hs.2.1 (by rw [hs.1]; exact hc)
        (by rw [hs.1]; exact hs.2.2)
      rw [hs.1] at h2
      exact h2)
    t (LFUCache.init cap)
    ⟨rfl, LFUCache.WF_init cap, by simp [LFUCache.init]⟩
  exact h.2.2

theorem TimeDecayedCache.tdc_run_size (cap : Nat) (dr : ℚ) (hc : 1 ≤ cap)
    (t : List Nat) :
    (runP TimeDecayedCache.access (TimeDecayedCache.init cap dr)
      t).cache.length ≤ cap := by
  have h := runP_preserve TimeDecayedCache.access
    (fun s => s.capacity = cap ∧ (keys s.cache).Nodup ∧
      s.cache.length ≤ cap)
    (fun s i hs => by
      refine ⟨by rw [(TimeDecayedCache.tdc_access_fields s i).1, hs.1],
        TimeDecayedCache.access_nodup s i hs.2.1, ?_⟩
      have h2 := TimeDecayedCache.tdc_access_size s i hs.2.1
        (by rw [hs.1]; exact hc) (by rw [hs.1]; exact hs.2.2)
      rw [hs.1] at h2
      exact h2)
    t (TimeDecayedCache.init cap dr)
    ⟨rfl, by simp [TimeDecayedCache.init, keys], by
      simp [TimeDecayedCache.init]⟩
  exact h.2.2

theorem ARCCache.run_Inv (cap : Nat) (hc : 1 ≤ cap) (t : List Nat) :
    (runP ARCCache.access (ARCCache.init cap) t).Inv ∧
    (runP ARCCache.access (ARCCache.init cap) t).capacity = cap :=
  runP_preserve ARCCache.access (fun s => s.Inv ∧ s.capacity = cap)
    (fun s i hs => ⟨ARCCache.access_Inv s i hs.1,
      by rw [(ARCCache.arc_access_fields s i).1, hs.2]⟩)
    t _ ⟨ARCCache.Inv_init cap hc, rfl⟩

theorem ARCCache.run_p_le (cap : Nat) (t : List Nat) :
    (runP ARCCache.access (ARCCache.init cap) t).p ≤ cap := by
  have h := runP_preserve ARCCache.access (fun s => s.p ≤ s.c ∧ s.c = cap)
    (fun s i hs => by
      have hap := ARCCache.access_p s i hs.1
      refine ⟨?_, by rw [hap.2.1, hs.2]⟩
      rw [hap.2.1]
      exact hap.1)
    t (ARCCache.init cap) ⟨by simp [ARCCache.init], rfl⟩
  exact h.1.trans_eq h.2

theorem ARCCache.run_p_mono : ∀ (t : List Nat) (s : ARCCache),
    s.p ≤ s.c → s.b1Friendly t = true →
    s.p ≤ (runP ARCCache.access s t).p := by
  intro t
  induction t with
  | nil => intro s _ _; exact le_refl _
  | cons i t ih =>
    intro s hp hb
    simp only [b1Friendly, Bool.and_eq_true, Bool.or_eq_true,
      decide_eq_true_eq] at hb
    have hap := ARCCache.access_p s i hp
    have hstep : s.p ≤ (s.access i).2.p := hap.2.2 hb.1
    have hnext := ih (s.access i).2 (by rw [hap.2.1]; exact hap.1) hb.2
    show s.p ≤ (runP ARCCache.access (s.access i).2 t).p
    exact le_trans hstep hnext

theorem ARCCache.run_c_cap (cap : Nat) (t : List Nat) :
    (runP ARCCache.access (ARCCache.init cap) t).c = cap ∧
    (runP ARCCache.access (ARCCache.init cap) t).capacity = cap :=
  runP_preserve ARCCache.access (fun s => s.c = cap ∧ s.capacity = cap)
    (fun s i hs => ⟨by rw [(ARCCache.arc_access_fields s i).2.1, hs.1],
      by rw [(ARCCache.arc_access_fields s i).1, hs.2]⟩)
    t (ARCCache.init cap) ⟨rfl, rfl⟩

theorem LRUCache.lru_run_capacity (cap : Nat) (t : List Nat) :
    (runP LRUCache.access (LRUCache.init cap) t).capacity = cap :=
  runP_preserve LRUCache.access (fun s => s.capacity = cap)
    (fun s i hs => by
      show (s.access i).2.capacity = cap
      rw [(LRUCache.lru_access_fields s i).1, hs])
    t (LRUCache.init cap) rfl

theorem LFUCache.lfu_run_capacity (cap : Nat) (t : List Nat) :
    (runP LFUCache.access (LFUCache.init cap) t).capacity = cap :=
  runP_preserve LFUCache.access (fun s => s.capacity = cap)
    (fun s i hs => by
      show (s.access i).2.capacity = cap
      rw [LFUCache.access_capacity s i, hs])
    t (LFUCache.init cap) rfl

theorem TimeDecayedCache.run_params (cap : Nat) (dr : ℚ) (t : List Nat) :
    (runP TimeDecayedCache.access (TimeDecayedCache.init cap dr)
      t).capacity = cap ∧
    (runP TimeDecayedCache.access (TimeDecayedCache.init cap dr)
      t).decay_rate = dr :=
  runP_preserve TimeDecayedCache.access
    (fun s => s.capacity = cap ∧ s.decay_rate = dr)
    (fun s i hs => ⟨by rw [(TimeDecayedCache.tdc_access_fields s i).1, hs.1],
      by rw [(TimeDecayedCache.tdc_access_fields s i).2.1, hs.2]⟩)
    t (TimeDecayedCache.init cap dr) ⟨rfl, rfl⟩

theorem LRUCache.lru_reset_eq (s : LRUCache) :
    s.reset = LRUCache.init s.capacity := rfl

theorem LFUCache.lfu_reset_eq (s : LFUCache) :
    s.reset = LFUCache.init s.capacity := rfl

theorem TimeDecayedCache.tdc_reset_eq (s : TimeDecayedCache) :
    s.reset = TimeDecayedCache.init s.capacity s.decay_rate := rfl

theorem ARCCache.arc_reset_eq (s : ARCCache) (h : s.c = s.capacity) :
    s.reset = ARCCache.init s.capacity := by
  unfold reset init
  rw [h]

theorem hit_ratio_cases (hits misses len : Nat)
    (hsum : hits + misses = len) :
    (len = 0 → get_hit_ratio hits misses = 0) ∧
    (len ≠ 0 → hits + misses ≠ 0 ∧
      get_hit_ratio hits misses = (hits : ℚ) / ((hits : ℚ) + misses)) := by
  constructor
  · intro h0
    unfold get_hit_ratio
    rw [if_neg (by omega)]
  · intro hne
    refine ⟨by omega, ?_⟩
    unfold get_hit_ratio
    rw [if_pos (by omega)]

/-- C1: every policy constructed with a positive capacity keeps its
resident set within the capacity along every access sequence: the LRU,
LFU and TDC item maps hold at most `capacity` items, and ARC satisfies
`|T1| + |T2| ≤ capacity`, `|B1| ≤ capacity` and `|B2| ≤ capacity` after
every sequence of accesses. -/
theorem claim_C1 (cap : Nat) (dr : ℚ) (hcap : 1 ≤ cap) (t : List Nat) :
    (runP LRUCache.access (LRUCache.init cap) t).cache.length ≤ cap ∧
    (runP LFUCache.access (LFUCache.init cap) t).cache.length ≤ cap ∧
    (runP TimeDecayedCache.access (TimeDecayedCache.init cap dr)
      t).cache.length ≤ cap ∧
    (runP ARCCache.access (ARCCache.init cap) t).t1.length +
      (runP ARCCache.access (ARCCache.init cap) t).t2.length ≤ cap ∧
    (runP ARCCache.access (ARCCache.init cap) t).b1.length ≤ cap ∧
    (runP ARCCache.access (ARCCache.init cap) t).b2.length ≤ cap := by
  obtain ⟨⟨hcc, hc1, hp, htot, hL1, hb1, hb2⟩, hcap2⟩ :=
    ARCCache.run_Inv cap hcap t
  have hceq : (runP ARCCache.access (ARCCache.init cap) t).c = cap := by
    rw [hcc, hcap2]
  exact ⟨LRUCache.lru_run_size cap hcap t, LFUCache.lfu_run_size cap hcap t,
    TimeDecayedCache.tdc_run_size cap dr hcap t, by omega, by omega, by omega⟩

/-- C1 witness at capacity 2 on the trace `[1, 2, 3]`. -/
theorem claim_C1_witness :
    (runP LRUCache.access (LRUCache.init 2) [1, 2, 3]).cache.length ≤ 2 ∧
    (runP LFUCache.access (LFUCache.init 2) [1, 2, 3]).cache.length ≤ 2 ∧
    (runP TimeDecayedCache.access (TimeDecayedCache.init 2 (1 / 2))
      [1, 2, 3]).cache.length ≤ 2 ∧
    (runP ARCCache.access (ARCCache.init 2) [1, 2, 3]).t1.length +
      (runP ARCCache.access (ARCCache.init 2) [1, 2, 3]).t2.length ≤ 2 ∧
    (runP ARCCache.access (ARCCache.init 2) [1, 2, 3]).b1.length ≤ 2 ∧
    (runP ARCCache.access (ARCCache.init 2) [1, 2, 3]).b2.length ≤ 2 :=
  claim_C1 2 (1 / 2) (by decide) [1, 2, 3]

/-- C2: for every policy, after every access sequence
`hits + misses = time = number of access calls`, and every single
`access` call increments `time` by exactly 1 (the increment happens
before any other effect: every other update in the model is computed
from the already-incremented state). -/
theorem claim_C2 (cap : Nat) (dr : ℚ) (t : List Nat) :
    ((runP LRUCache.access (LRUCache.init cap) t).hits +
        (runP LRUCache.access (LRUCache.init cap) t).misses =
        (runP LRUCache.access (LRUCache.init cap) t).time ∧
      (runP LRUCache.access (LRUCache.init cap) t).time = t.length) ∧
    ((runP LFUCache.access (LFUCache.init cap) t).hits +
        (runP LFUCache.access (LFUCache.init cap) t).misses =
        (runP LFUCache.access (LFUCache.init cap) t).time ∧
      (runP LFUCache.access (LFUCache.init cap) t).time = t.length) ∧
    ((runP ARCCache.access (ARCCache.init cap) t).hits +
        (runP ARCCache.access (ARCCache.init cap) t).misses =
        (runP ARCCache.access (ARCCache.init cap) t).time ∧
      (runP ARCCache.access (ARCCache.init cap) t).time = t.length) ∧
    ((runP TimeDecayedCache.access (TimeDecayedCache.init cap dr) t).hits +
        (runP TimeDecayedCache.access (TimeDecayedCache.init cap dr)
          t).misses =
        (runP TimeDecayedCache.access (TimeDecayedCache.init cap dr)
          t).time ∧
      (runP TimeDecayedCache.access (TimeDecayedCache.init cap dr)
        t).time = t.length) ∧
    (∀ (s : LRUCache) (i : Nat),
      (s.access i).2.time = s.time + 1) ∧
    (∀ (s : LFUCache) (i : Nat),
      (s.access i).2.time = s.time + 1) ∧
    (∀ (s : ARCCache) (i : Nat),
      (s.access i).2.time = s.time + 1) ∧
    (∀ (s : TimeDecayedCache) (i : Nat),
      (s.access i).2.time = s.time + 1) := by
  refine ⟨?_, ?_, ?_, ?_,
    fun s i => (LRUCache.lru_access_fields s i).2.1,
    fun s i => LFUCache.access_time s i,
    fun s i => (ARCCache.arc_access_fields s i).2.2.1,
    fun s i => (TimeDecayedCache.tdc_access_fields s i).2.2⟩
  · exact run_counters LRUCache.access (fun s => s.time) (fun s => s.hits)
      (fun s => s.misses)
      (fun s i => (LRUCache.lru_access_fields s i).2.1)
      (fun s i => (LRUCache.lru_access_fields s i).2.2)
      (LRUCache.init cap) ⟨rfl, rfl, rfl⟩ t
  · exact run_counters LFUCache.access (fun s => s.time) (fun s => s.hits)
      (fun s => s.misses)
      (fun s i => LFUCache.access_time s i)
      (fun s i => LFUCache.lfu_access_counters s i)
      (LFUCache.init cap) ⟨rfl, rfl, rfl⟩ t
  · exact run_counters ARCCache.access (fun s => s.time) (fun s => s.hits)
      (fun s => s.misses)
      (fun s i => (ARCCache.arc_access_fields s i).2.2.1)
      (fun s i => (ARCCache.arc_access_fields s i).2.2.2)
      (ARCCache.init cap) ⟨rfl, rfl, rfl⟩ t
  · exact run_counters TimeDecayedCache.access (fun s => s.time)
      (fun s => s.hits) (fun s => s.misses)
      (fun s i => (TimeDecayedCache.tdc_access_fields s i).2.2)
      (fun s i => TimeDecayedCache.tdc_access_counters s i)
      (TimeDecayedCache.init cap dr) ⟨rfl, rfl, rfl⟩ t

/-- C3 (code bug): the claim is right about the intended behaviour, but
the source crashes on a reachable input.  At the ARC state reached from a
fresh capacity-1 instance by accesses `[1, 1, 2, 2]`, item 1 sits only in
the B2 ghost list, so `access(1)` takes the ghost-B2 branch; after
`_replace(True)` — whose B2 cap pop evicts item 1 itself — item 1 is no
longer in B2, so the source's unconditional `del self.b2[item]`
(cache_arc.py line 84) raises `KeyError` instead of returning `false` and
making the item resident.  This theorem evaluates the model at that input:
the dispatch conditions of the ghost-B2 branch hold, yet after the
replacement step the item is gone from B2. -/
theorem claim_C3_code_bug :
    1 ∈ (runP ARCCache.access (ARCCache.init 1) [1, 1, 2, 2]).b2 ∧
    1 ∉ (runP ARCCache.access (ARCCache.init 1) [1, 1, 2, 2]).t1 ∧
    1 ∉ (runP ARCCache.access (ARCCache.init 1) [1, 1, 2, 2]).t2 ∧
    1 ∉ (runP ARCCache.access (ARCCache.init 1) [1, 1, 2, 2]).b1 ∧
    1 ∉ (runP ARCCache.access
      (ARCCache.init 1) [1, 1, 2, 2]).ghost2Mid.b2 := by
  decide

/-- C4: resetting any reachable instance restores the freshly
constructed state: `stats` reads `(0, 0, 0.0)` and every subsequent
access sequence produces the same hit/miss outputs as a fresh instance
with the same construction parameters. -/
theorem claim_C4 (cap : Nat) (dr : ℚ) (t0 t : List Nat) :
    ((runP LRUCache.access (LRUCache.init cap) t0).reset =
        LRUCache.init cap ∧
      get_stats (runP LRUCache.access (LRUCache.init cap) t0).reset.hits
        (runP LRUCache.access (LRUCache.init cap) t0).reset.misses =
        (0, 0, 0) ∧
      outsP LRUCache.access
        (runP LRUCache.access (LRUCache.init cap) t0).reset t =
        outsP LRUCache.access (LRUCache.init cap) t) ∧
    ((runP LFUCache.access (LFUCache.init cap) t0).reset =
        LFUCache.init cap ∧
      get_stats (runP LFUCache.access (LFUCache.init cap) t0).reset.hits
        (runP LFUCache.access (LFUCache.init cap) t0).reset.misses =
        (0, 0, 0) ∧
      outsP LFUCache.access
        (runP LFUCache.access (LFUCache.init cap) t0).reset t =
        outsP LFUCache.access (LFUCache.init cap) t) ∧
    ((runP ARCCache.access (ARCCache.init cap) t0).reset =
        ARCCache.init cap ∧
      get_stats (runP ARCCache.access (ARCCache.init cap) t0).reset.hits
        (runP ARCCache.access (ARCCache.init cap) t0).reset.misses =
        (0, 0, 0) ∧
      outsP ARCCache.access
        (runP ARCCache.access (ARCCache.init cap) t0).reset t =
        outsP ARCCache.access (ARCCache.init cap) t) ∧
    ((runP TimeDecayedCache.access (TimeDecayedCache.init cap dr)
        t0).reset = TimeDecayedCache.init cap dr ∧
      get_stats
        (runP TimeDecayedCache.access (TimeDecayedCache.init cap dr)
          t0).reset.hits
        (runP TimeDecayedCache.access (TimeDecayedCache.init cap dr)
          t0).reset.misses = (0, 0, 0) ∧
      outsP TimeDecayedCache.access
        (runP TimeDecayedCache.access (TimeDecayedCache.init cap dr)
          t0).reset t =
        outsP TimeDecayedCache.access (TimeDecayedCache.init cap dr) t) := by
  have hlru : (runP LRUCache.access (LRUCache.init cap) t0).reset =
      LRUCache.init cap := by
    rw [LRUCache.lru_reset_eq, LRUCache.lru_run_capacity]
  have hlfu : (runP LFUCache.access (LFUCache.init cap) t0).reset =
      LFUCache.init cap := by
    rw [LFUCache.lfu_reset_eq, LFUCache.lfu_run_capacity]
  have harc : (runP ARCCache.access (ARCCache.init cap) t0).reset =
      ARCCache.init cap := by
    have h := ARCCache.run_c_cap cap t0
    rw [ARCCache.arc_reset_eq _ (by rw [h.1, h.2]), h.2]
  have htdc : (runP TimeDecayedCache.access (TimeDecayedCache.init cap dr)
      t0).reset = TimeDecayedCache.init cap dr := by
    rw [TimeDecayedCache.tdc_reset_eq, (TimeDecayedCache.run_params cap dr t0).1,
      (TimeDecayedCache.run_params cap dr t0).2]
  refine ⟨⟨hlru, ?_, by rw [hlru]⟩, ⟨hlfu, ?_, by rw [hlfu]⟩,
    ⟨harc, ?_, by rw [harc]⟩, ⟨htdc, ?_, by rw [htdc]⟩⟩
  · rw [hlru]
    simp [get_stats, get_hit_ratio, LRUCache.init]
  · rw [hlfu]
    simp [get_stats, get_hit_ratio, LFUCache.init]
  · rw [harc]
    simp [get_stats, get_hit_ratio, ARCCache.init]
  · rw [htdc]
    simp [get_stats, get_hit_ratio, TimeDecayedCache.init]

/-- C5: the golden LRU regression trace — capacity 3, accesses
`[1, 2, 3, 1, 2, 4, 1, 5]` produce exactly the hit/miss pattern
`[miss, miss, miss, hit, hit, miss, hit, miss]`. -/
theorem claim_C5 :
    outsP LRUCache.access (LRUCache.init 3) [1, 2, 3, 1, 2, 4, 1, 5] =
      [false, false, false, true, true, false, true, false] := by
  decide

/-- C6: on an LFU miss at capacity, the evicted item is the head (the
oldest entry) of the minimum-frequency bucket, and every other resident
item survives; concretely, capacity 2 with accesses `[1, 1, 2, 3]`
evicts item 2, leaving exactly `{1, 3}` resident. -/
theorem claim_C6 :
    (∀ (s : LFUCache) (i e : Nat),
      alistLookup i s.cache = none → s.capacity ≤ s.cache.length →
      (s.freq_to_items s.min_freq).head? = some e → i ≠ e →
      ∀ x, (s.access i).2.resident x ↔ (s.resident x ∧ x ≠ e) ∨ x = i) ∧
    2 ∉ keys (runP LFUCache.access (LFUCache.init 2) [1, 1, 2, 3]).cache ∧
    keys (runP LFUCache.access (LFUCache.init 2) [1, 1, 2, 3]).cache =
      [1, 3] := by
  refine ⟨fun s i e h1 h2 h3 h4 =>
    LFUCache.evict_head_spec s i e h1 h2 h3 h4, ?_, ?_⟩
  · decide
  · rfl

/-- C6 witness: accessing 3 after `[1, 1, 2]` on a capacity-2 LFU cache
makes 3 resident via the eviction of the min-frequency head 2. -/
theorem claim_C6_witness :
    ((runP LFUCache.access (LFUCache.init 2) [1, 1, 2]).access
      3).2.resident 3 :=
  (claim_C6.1 (runP LFUCache.access (LFUCache.init 2) [1, 1, 2]) 3 2
    (by decide) (by decide) (by rfl) (by decide) 3).mpr (Or.inr rfl)

/-- C7: ARC's adaptation target satisfies `0 ≤ p ≤ capacity` after every
access sequence (p is a natural number in the model, so the lower bound
is inherent), and over any sequence in which every miss is a B1 ghost
hit, `p` never decreases. -/
theorem claim_C7 (cap : Nat) (t : List Nat) :
    (runP ARCCache.access (ARCCache.init cap) t).p ≤ cap ∧
    (∀ s : ARCCache, s.p ≤ s.c → s.b1Friendly t = true →
      s.p ≤ (runP ARCCache.access s t).p) :=
  ⟨ARCCache.run_p_le cap t,
    fun s hp hb => ARCCache.run_p_mono t s hp hb⟩

/-- C7 witness: from the reachable state after `[1, 2, 1, 3]` at
capacity 2 (where item 2 sits in B1), accessing 2 is a B1-friendly
trace and `p` does not decrease. -/
theorem claim_C7_witness :
    (runP ARCCache.access (ARCCache.init 2) [1, 2, 1, 3]).p ≤
      (runP ARCCache.access
        (runP ARCCache.access (ARCCache.init 2) [1, 2, 1, 3]) [2]).p :=
  (claim_C7 2 [2]).2 (runP ARCCache.access (ARCCache.init 2) [1, 2, 1, 3])
    (by decide) (by decide)

/-- C8: `hit_ratio` is exactly `hits / (hits + misses)` once at least one
access happened, and `0` (never a division by zero) on a fresh instance,
for all four policies. -/
theorem claim_C8 (cap : Nat) (dr : ℚ) (t : List Nat) :
    (t = [] →
      get_hit_ratio (runP LRUCache.access (LRUCache.init cap) t).hits
        (runP LRUCache.access (LRUCache.init cap) t).misses = 0 ∧
      get_hit_ratio (runP LFUCache.access (LFUCache.init cap) t).hits
        (runP LFUCache.access (LFUCache.init cap) t).misses = 0 ∧
      get_hit_ratio (runP ARCCache.access (ARCCache.init cap) t).hits
        (runP ARCCache.access (ARCCache.init cap) t).misses = 0 ∧
      get_hit_ratio
        (runP TimeDecayedCache.access (TimeDecayedCache.init cap dr)
          t).hits
        (runP TimeDecayedCache.access (TimeDecayedCache.init cap dr)
          t).misses = 0) ∧
    (t ≠ [] →
      ((runP LRUCache.access (LRUCache.init cap) t).hits +
          (runP LRUCache.access (LRUCache.init cap) t).misses ≠ 0 ∧
        get_hit_ratio (runP LRUCache.access (LRUCache.init cap) t).hits
          (runP LRUCache.access (LRUCache.init cap) t).misses =
          ((runP LRUCache.access (LRUCache.init cap) t).hits : ℚ) /
            (((runP LRUCache.access (LRUCache.init cap) t).hits : ℚ) +
              ((runP LRUCache.access (LRUCache.init cap) t).misses : ℚ))) ∧
      ((runP LFUCache.access (LFUCache.init cap) t).hits +
          (runP LFUCache.access (LFUCache.init cap) t).misses ≠ 0 ∧
        get_hit_ratio (runP LFUCache.access (LFUCache.init cap) t).hits
          (runP LFUCache.access (LFUCache.init cap) t).misses =
          ((runP LFUCache.access (LFUCache.init cap) t).hits : ℚ) /
            (((runP LFUCache.access (LFUCache.init cap) t).hits : ℚ) +
              ((runP LFUCache.access (LFUCache.init cap) t).misses : ℚ))) ∧
      ((runP ARCCache.access (ARCCache.init cap) t).hits +
          (runP ARCCache.access (ARCCache.init cap) t).misses ≠ 0 ∧
        get_hit_ratio (runP ARCCache.access (ARCCache.init cap) t).hits
          (runP ARCCache.access (ARCCache.init cap) t).misses =
          ((runP ARCCache.access (ARCCache.init cap) t).hits : ℚ) /
            (((runP ARCCache.access (ARCCache.init cap) t).hits : ℚ) +
              ((runP ARCCache.access (ARCCache.init cap) t).misses : ℚ))) ∧
      ((runP TimeDecayedCache.access (TimeDecayedCache.init cap dr)
            t).hits +
          (runP TimeDecayedCache.access (TimeDecayedCache.init cap dr)
            t).misses ≠ 0 ∧
        get_hit_ratio
          (runP TimeDecayedCache.access (TimeDecayedCache.init cap dr)
            t).hits
          (runP TimeDecayedCache.access (TimeDecayedCache.init cap dr)
            t).misses =
          ((runP TimeDecayedCache.access (TimeDecayedCache.init cap dr)
            t).hits : ℚ) /
            (((runP TimeDecayedCache.access (TimeDecayedCache.init cap dr)
              t).hits : ℚ) +
              ((runP TimeDecayedCache.access
                (TimeDecayedCache.init cap dr) t).misses : ℚ)))) := by
  have hlru := run_counters LRUCache.access (fun s => s.time)
    (fun s => s.hits) (fun s => s.misses)
    (fun s i => (LRUCache.lru_access_fields s i).2.1)
    (fun s i => (LRUCache.lru_access_fields s i).2.2)
    (LRUCache.init cap) ⟨rfl, rfl, rfl⟩ t
  have hlfu := run_counters LFUCache.access (fun s => s.time)
    (fun s => s.hits) (fun s => s.misses)
    (fun s i => LFUCache.access_time s i)
    (fun s i => LFUCache.lfu_access_counters s i)
    (LFUCache.init cap) ⟨rfl, rfl, rfl⟩ t
  have harc := run_counters ARCCache.access (fun s => s.time)
    (fun s => s.hits) (fun s => s.misses)
    (fun s i => (ARCCache.arc_access_fields s i).2.2.1)
    (fun s i => (ARCCache.arc_access_fields s i).2.2.2)
    (ARCCache.init cap) ⟨rfl, rfl, rfl⟩ t
  have htdc := run_counters TimeDecayedCache.access (fun s => s.time)
    (fun s => s.hits) (fun s => s.misses)
    (fun s i => (TimeDecayedCache.tdc_access_fields s i).2.2)
    (fun s i => TimeDecayedCache.tdc_access_counters s i)
    (TimeDecayedCache.init cap dr) ⟨rfl, rfl, rfl⟩ t
  have hlru' : (runP LRUCache.access (LRUCache.init cap) t).hits +
      (runP LRUCache.access (LRUCache.init cap) t).misses =
      (runP LRUCache.access (LRUCache.init cap) t).time ∧
      (runP LRUCache.access (LRUCache.init cap) t).time = t.length := hlru
  have hlfu' : (runP LFUCache.access (LFUCache.init cap) t).hits +
      (runP LFUCache.access (LFUCache.init cap) t).misses =
      (runP LFUCache.access (LFUCache.init cap) t).time ∧
      (runP LFUCache.access (LFUCache.init cap) t).time = t.length := hlfu
  have harc' : (runP ARCCache.access (ARCCache.init cap) t).hits +
      (runP ARCCache.access (ARCCache.init cap) t).misses =
      (runP ARCCache.access (ARCCache.init cap) t).time ∧
      (runP ARCCache.access (ARCCache.init cap) t).time = t.length := harc
  have htdc' :
      (runP TimeDecayedCache.access (TimeDecayedCache.init cap dr) t).hits +
      (runP TimeDecayedCache.access (TimeDecayedCache.init cap dr)
        t).misses =
      (runP TimeDecayedCache.access (TimeDecayedCache.init cap dr)
        t).time ∧
      (runP TimeDecayedCache.access (TimeDecayedCache.init cap dr)
        t).time = t.length := htdc
  have hLRU := hit_ratio_cases
    (runP LRUCache.access (LRUCache.init cap) t).hits
    (runP LRUCache.access (LRUCache.init cap) t).misses
    t.length (by omega)
  have hLFU := hit_ratio_cases
    (runP LFUCache.access (LFUCache.init cap) t).hits
    (runP LFUCache.access (LFUCache.init cap) t).misses
    t.length (by omega)
  have hARC := hit_ratio_cases
    (runP ARCCache.access (ARCCache.init cap) t).hits
    (runP ARCCache.access (ARCCache.init cap) t).misses
    t.length (by omega)
  have hTDC := hit_ratio_cases
    (runP TimeDecayedCache.access (TimeDecayedCache.init cap dr) t).hits
    (runP TimeDecayedCache.access (TimeDecayedCache.init cap dr) t).misses
    t.length (by omega)
  constructor
  · intro ht
    have hlen : t.length = 0 := by rw [ht]; rfl
    exact ⟨hLRU.1 hlen, hLFU.1 hlen, hARC.1 hlen, hTDC.1 hlen⟩
  · intro ht
    have hlen : t.length ≠ 0 := by
      intro h0
      exact ht (List.length_eq_zero.mp h0)
    exact ⟨hLRU.2 hlen, hLFU.2 hlen, hARC.2 hlen, hTDC.2 hlen⟩

/-- C8 witness at capacity 1 on the single-access trace `[5]`. -/
theorem claim_C8_witness :
    ((runP LRUCache.access (LRUCache.init 1) [5]).hits +
        (runP LRUCache.access (LRUCache.init 1) [5]).misses ≠ 0 ∧
      get_hit_ratio (runP LRUCache.access (LRUCache.init 1) [5]).hits
        (runP LRUCache.access (LRUCache.init 1) [5]).misses =
        ((runP LRUCache.access (LRUCache.init 1) [5]).hits : ℚ) /
          (((runP LRUCache.access (LRUCache.init 1) [5]).hits : ℚ) +
            ((runP LRUCache.access (LRUCache.init 1) [5]).misses : ℚ))) ∧
    ((runP LFUCache.access (LFUCache.init 1) [5]).hits +
        (runP LFUCache.access (LFUCache.init 1) [5]).misses ≠ 0 ∧
      get_hit_ratio (runP LFUCache.access (LFUCache.init 1) [5]).hits
        (runP LFUCache.access (LFUCache.init 1) [5]).misses =
        ((runP LFUCache.access (LFUCache.init 1) [5]).hits : ℚ) /
          (((runP LFUCache.access (LFUCache.init 1) [5]).hits : ℚ) +
            ((runP LFUCache.access (LFUCache.init 1) [5]).misses : ℚ))) ∧
    ((runP ARCCache.access (ARCCache.init 1) [5]).hits +
        (runP ARCCache.access (ARCCache.init 1) [5]).misses ≠ 0 ∧
      get_hit_ratio (runP ARCCache.access (ARCCache.init 1) [5]).hits
        (runP ARCCache.access (ARCCache.init 1) [5]).misses =
        ((runP ARCCache.access (ARCCache.init 1) [5]).hits : ℚ) /
          (((runP ARCCache.access (ARCCache.init 1) [5]).hits : ℚ) +
            ((runP ARCCache.access (ARCCache.init 1) [5]).misses : ℚ))) ∧
    ((runP TimeDecayedCache.access (TimeDecayedCache.init 1 (1 / 2))
          [5]).hits +
        (runP TimeDecayedCache.access (TimeDecayedCache.init 1 (1 / 2))
          [5]).misses ≠ 0 ∧
      get_hit_ratio
        (runP TimeDecayedCache.access (TimeDecayedCache.init 1 (1 / 2))
          [5]).hits
        (runP TimeDecayedCache.access (TimeDecayedCache.init 1 (1 / 2))
          [5]).misses =
        ((runP TimeDecayedCache.access (TimeDecayedCache.init 1 (1 / 2))
          [5]).hits : ℚ) /
          (((runP TimeDecayedCache.access (TimeDecayedCache.init 1 (1 / 2))
            [5]).hits : ℚ) +
            ((runP TimeDecayedCache.access
              (TimeDecayedCache.init 1 (1 / 2)) [5]).misses : ℚ))) :=
  (claim_C8 1 (1 / 2) [5]).2 (by decide)

/-- C9 counterexample: the claim asserts a default decay rate of 0.995,
but the `TimeDecayedCache.__init__` default in the source is 0.99. -/
theorem claim_C9_counterexample :
    (TimeDecayedCache.init 3).decay_rate ≠ 995 / 1000 := by
  show tdcDefaultDecayRate ≠ 995 / 1000
  unfold tdcDefaultDecayRate
  norm_num

/-- C9 amended: the `TimeDecayedCache` construction contract takes a
`decay_rate` parameter whose default value is 0.99, which lies in the
open interval (0, 1); the (0, 1) constraint itself is not enforced by
the constructor. -/
theorem claim_C9_amended (cap : Nat) :
    (TimeDecayedCache.init cap).decay_rate = 99 / 100 ∧
    0 < (TimeDecayedCache.init cap).decay_rate ∧
    (TimeDecayedCache.init cap).decay_rate < 1 := by
  refine ⟨rfl, ?_, ?_⟩ <;>
    norm_num [TimeDecayedCache.init, tdcDefaultDecayRate]

/-- C10: a hit never changes the resident set, for every policy and
every state: only ordering/score bookkeeping and the counters move (for
ARC the item may migrate from T1 to T2, leaving T1 ∪ T2 unchanged). -/
theorem claim_C10 :
    (∀ (s : LRUCache) (i : Nat), (s.access i).1 = true →
      ∀ x, (s.access i).2.resident x ↔ s.resident x) ∧
    (∀ (s : LFUCache) (i : Nat), (s.access i).1 = true →
      ∀ x, (s.access i).2.resident x ↔ s.resident x) ∧
    (∀ (s : ARCCache) (i : Nat), (s.access i).1 = true →
      ∀ x, (s.access i).2.resident x ↔ s.resident x) ∧
    (∀ (s : TimeDecayedCache) (i : Nat), (s.access i).1 = true →
      ∀ x, (s.access i).2.resident x ↔ s.resident x) :=
  ⟨fun s i h => ((LRUCache.lru_access_spec s i).2.1 h).2.2,
    fun s i h => ((LFUCache.lfu_access_spec s i).2.1 h).2.2,
    fun s i h => ((ARCCache.arc_access_spec s i).2.1 h).2.2,
    fun s i h => ((TimeDecayedCache.tdc_access_spec s i).2.1 h).2.2⟩

/-- C10 witness: a hit on item 7 in an LRU cache containing 7 leaves 7
resident. -/
theorem claim_C10_witness :
    ((runP LRUCache.access (LRUCache.init 2) [7]).access 7).2.resident 7 ↔
      (runP LRUCache.access (LRUCache.init 2) [7]).resident 7 :=
  claim_C10.1 (runP LRUCache.access (LRUCache.init 2) [7]) 7 (by decide) 7
